import Mathlib

/-!
Shallow embedding of the insertion-ordered hash table family of
`src/objects/ordered-hash-table.cc` (large heap form, small inline form,
handler facade and iterator transition), together with proofs about the
claims of the specification.

Keys are modelled as abstract values with an identity hash supplied by the
environment (`hash : Nat → Nat`); `SameValueZero` on such abstract values is
modelled as decidable equality, and the distinguished hole sentinel is a
separate constructor.  The flat backing array of the C++ code is modelled
structurally: the bucket region is a list of bucket heads, the data region a
list of entries (payload fields plus the chain link that the C++ stores at
the entry's chain offset).
-/

namespace OrderedHT

/-- An abstract tagged value: either the hole sentinel or a proper value
identified by a natural number. -/
inductive Obj where
  | hole : Obj
  | val (n : Nat) : Obj
deriving DecidableEq

/-- One data-region entry of the large form: its payload fields
(`entrysize` many, the key first) and its chain link (`none` = kNotFound). -/
structure Slot where
  fields : List Obj
  chain : Option Nat
deriving DecidableEq

/-- The large-form table contents: header counters, bucket region, data
region, and the removed-indices log that `Rehash` records into the source
(the C++ reuses the obsolete table's backing store for this log; the log is
modelled as its own field, which is observationally equivalent because the
loop's data reads are never clobbered by the log writes). -/
structure TblData where
  numBuckets : Nat
  buckets : List (Option Nat)
  numElements : Nat
  numDeleted : Int
  slots : List Slot
  removed : List Nat
deriving DecidableEq

/-- A large-form table together with its `next_table` chain: `base` is a
non-obsolete table, `chained d nx` is an obsolete table `d` whose
`next_table` is `nx`. -/
inductive HashTbl where
  | base (d : TblData) : HashTbl
  | chained (d : TblData) (nx : HashTbl) : HashTbl
deriving DecidableEq

namespace HashTbl

def data : HashTbl → TblData
  | base d => d
  | chained d _ => d

def withData : HashTbl → TblData → HashTbl
  | base _, d => base d
  | chained _ nx, d => chained d nx

def isObsolete : HashTbl → Bool
  | base _ => false
  | chained _ _ => true

@[simp] theorem data_base (d : TblData) : (base d).data = d := rfl
@[simp] theorem data_chained (d : TblData) (nx : HashTbl) :
    (chained d nx).data = d := rfl
@[simp] theorem withData_base (d d' : TblData) : (base d).withData d' = base d' := rfl

end HashTbl

/-- kLoadFactor: ratio of capacity to bucket count (spec: LOAD_FACTOR = 2). -/
def kLoadFactor : Nat := 2

/-- Modelled from the spec: `kInitialCapacity` is declared in
`ordered-hash-table.h`, which is not part of the sources; the spec only
names it ("an empty table steps up to kInitialCapacity").  The concrete
value (4 in the original) does not affect any claim. -/
def kInitialCapacity : Nat := 4

/-- Modelled from the spec: `MaxCapacity()` is declared in
`ordered-hash-table.h`, which is not part of the sources; the spec only
requires that exceeding it surfaces a range error.  Any fixed bound works;
the claims are stated relative to this constant. -/
def maxCapacity : Nat := 2 ^ 21

/-- Modelled from the spec: `kClearedTableSentinel` is declared in
`ordered-hash-table.h`, which is not part of the sources.  It is stamped
into the deleted-elements field of a cleared table, so it must be
distinguishable from every real (non-negative) count; the original uses -2. -/
def kClearedTableSentinel : Int := -2

/-- Doubling loop computing the least power of two that is at least `n`,
starting from the power-of-two accumulator `acc`; `n` itself is enough
fuel because `n < 2 ^ n`. -/
def rup2go (n : Nat) : Nat → Nat → Nat
  | 0, acc => acc
  | fuel + 1, acc => if n ≤ acc then acc else rup2go n fuel (acc * 2)

/-- Mirrors `base::bits::RoundUpToPowerOfTwo32`: the least power of two that is at
least `n` (its arguments here are always ≥ 1). -/
def roundUpPow2 (n : Nat) : Nat := rup2go n n 1

/-- Capacity of a large-form table (`Capacity()`, header accessor):
`NumberOfBuckets() * kLoadFactor`. -/
def tblCapacity (d : TblData) : Nat := d.numBuckets * kLoadFactor

/-- Mirrors `UsedCapacity()`: `NumberOfElements() + NumberOfDeletedElements()`, as a
natural number (the deleted count is an `int` in the C++; it is only
negative for cleared tables, which never reach the operations that use the
used capacity). -/
def usedCapacityN (d : TblData) : Nat := ((d.numElements : Int) + d.numDeleted).toNat

def defaultSlot (es : Nat) : Slot := ⟨List.replicate es Obj.hole, none⟩

/-- The key of a slot: its first payload field (hole when absent). -/
def slotKey (s : Slot) : Obj := s.fields.headD Obj.hole

/-- The key of a small-form data row: its first cell (hole when absent). -/
def rowKey (row : List Obj) : Obj := row.headD Obj.hole

/-- Data-region read of a whole entry. -/
def slotAt (d : TblData) (e : Nat) : Slot := (d.slots.get? e).getD ⟨[], none⟩

/-- Mirrors `KeyAt(entry)`: the first payload field of the entry. -/
def keyAt (d : TblData) (e : Nat) : Obj := slotKey (slotAt d e)

/-- Mirrors `NextChainEntryRaw(entry)`: the chain link of the entry. -/
def chainAt (d : TblData) (e : Nat) : Option Nat := (slotAt d e).chain

/-- Mirrors `HashToBucket(hash)` for the large form: `hash AND (number_of_buckets - 1)`
(spec §4.1; the bucket count is a power of two). -/
def hashToBucket (d : TblData) (h : Nat) : Nat := h &&& (d.numBuckets - 1)

/-- Mirrors `HashToEntryRaw(hash)`: the head of the bucket's chain. -/
def hashToEntry (d : TblData) (h : Nat) : Option Nat :=
  (d.buckets.get? (hashToBucket d h)).getD none

/-- The identity hash of a proper value; holes are never hashed by the code
paths modelled here. -/
def objHash (hash : Nat → Nat) : Obj → Nat
  | Obj.hole => 0
  | Obj.val n => hash n

/-- Walk a bucket chain looking for `k` under SameValueZero (modelled as
equality of abstract values).  The fuel bounds the walk; any fuel at least
the chain length gives the C++ behaviour, and a result of `some e` is
correct for every fuel. -/
def chainFind (d : TblData) (k : Obj) : Nat → Option Nat → Option Nat
  | _, none => none
  | 0, some _ => none
  | fuel + 1, some e =>
    if keyAt d e = k then some e else chainFind d k fuel (chainAt d e)

/-- The chain walk of the duplicate check in the `Add` functions, starting
from the key's bucket. -/
def chainFindKey (d : TblData) (h : Nat) (k : Obj) : Option Nat :=
  chainFind d k (d.slots.length + 1) (hashToEntry d h)

/-- Mirrors `OrderedHashTable::Allocate` (lines 18–47): round the request up to a
power of two no smaller than `kInitialCapacity`, fail when the result
exceeds `MaxCapacity()`, otherwise produce a table with
`capacity / kLoadFactor` buckets, all set to kNotFound, and zero counters. -/
def allocate (es : Nat) (capacity : Nat) : Option HashTbl :=
  let capacity := roundUpPow2 (max kInitialCapacity capacity)
  if maxCapacity < capacity then none
  else
    let numBuckets := capacity / kLoadFactor
    some (HashTbl.base
      { numBuckets := numBuckets
        buckets := List.replicate numBuckets none
        numElements := 0
        numDeleted := 0
        slots := List.replicate capacity (defaultSlot es)
        removed := [] })

def setSlot (d : TblData) (e : Nat) (s : Slot) : TblData :=
  { d with slots := d.slots.set e s }

def setBucket (d : TblData) (b : Nat) (v : Option Nat) : TblData :=
  { d with buckets := d.buckets.set b v }

/-- The entry-migration loop of `OrderedHashTable::Rehash` (lines 279–299),
walking the source entries in ascending slot order.  `oldIdx` is the source
slot index of the head of `src`, `nt` the new table under construction,
`ne` the next free slot of the new table, `rem` the removed-indices log
recorded so far. -/
def rehashLoop (hash : Nat → Nat) :
    List Slot → Nat → TblData → Nat → List Nat → TblData × Nat × List Nat
  | [], _, nt, ne, rem => (nt, ne, rem)
  | s :: ss, oldIdx, nt, ne, rem =>
    let key := slotKey s
    if key = Obj.hole then
      rehashLoop hash ss (oldIdx + 1) nt ne (rem ++ [oldIdx])
    else
      let h := objHash hash key
      let bucket := h &&& (nt.numBuckets - 1)
      let chainEntry := (nt.buckets.get? bucket).getD none
      let nt := setBucket nt bucket (some ne)
      let nt := setSlot nt ne ⟨s.fields, chainEntry⟩
      rehashLoop hash ss (oldIdx + 1) nt (ne + 1) rem

/-- The removed-indices log is written into the source starting at position
0; positions past the written log keep their old contents. -/
def overwriteLog (old new : List Nat) : List Nat := new ++ old.drop new.length

/-- Mirrors `OrderedHashTable::Rehash` (lines 260–310): allocate a new table of the
requested capacity, migrate the live entries in slot order while recording
the tombstoned slot indices into the source's removed-indices log, copy the
element count, and set the source's `next_table` to the new table unless the
source is the canonical empty table (zero buckets).  Returns the new table
together with the updated source. -/
def rehash (es : Nat) (hash : Nat → Nat) (table : HashTbl) (newCapacity : Nat) :
    Option (HashTbl × HashTbl) :=
  match allocate es newCapacity with
  | none => none
  | some newTbl =>
    let src := table.data
    let (ntd, _, removedLog) :=
      rehashLoop hash (src.slots.take (usedCapacityN src)) 0 newTbl.data 0 []
    let ntd := { ntd with numElements := src.numElements }
    let newT := HashTbl.base ntd
    let src' := { src with removed := overwriteLog src.removed removedLog }
    let srcT := if 0 < src.numBuckets then HashTbl.chained src' newT
                else table.withData src'
    some (newT, srcT)

/-- Mirrors `OrderedHashTable::EnsureCapacityForAdding` (lines 69–94). -/
def ensureCapacityForAdding (es : Nat) (hash : Nat → Nat) (table : HashTbl) :
    Option HashTbl :=
  let nof := table.data.numElements
  let nod := table.data.numDeleted
  let capacity := tblCapacity table.data
  if (nof : Int) + nod < (capacity : Int) then some table
  else
    let newCapacity : Nat :=
      if capacity = 0 then kInitialCapacity
      else if ((capacity / 2 : Nat) : Int) ≤ nod then capacity
      else capacity * 2
    (rehash es hash table newCapacity).map Prod.fst

/-- Mirrors `OrderedHashTable::Clear` (lines 107–126): allocate a fresh table at
`kInitialCapacity`; when the old table has buckets, chain it to the fresh
one and stamp the cleared sentinel into its deleted count; the canonical
empty table is left untouched. -/
def clear (es : Nat) (table : HashTbl) : Option (HashTbl × HashTbl) :=
  match allocate es kInitialCapacity with
  | none => none
  | some newTbl =>
    if 0 < table.data.numBuckets then
      let d := { table.data with numDeleted := kClearedTableSentinel }
      some (newTbl, HashTbl.chained d newTbl)
    else
      some (newTbl, table)

/-- Mirrors `OrderedHashSet::Add` (lines 171–213). -/
def OrderedHashSet_Add (hash : Nat → Nat) (table : HashTbl) (key : Nat) :
    Option HashTbl :=
  let h := hash key
  if 0 < table.data.numElements ∧ chainFindKey table.data h (Obj.val key) ≠ none then
    some table
  else
    match ensureCapacityForAdding 1 hash table with
    | none => none
    | some table =>
      let d := table.data
      let bucket := hashToBucket d h
      let previousEntry := hashToEntry d h
      let nof := d.numElements
      let newEntry := usedCapacityN d
      let d := setSlot d newEntry ⟨[Obj.val key], previousEntry⟩
      let d := setBucket d bucket (some newEntry)
      let d := { d with numElements := nof + 1 }
      some (table.withData d)

/-- Mirrors `OrderedHashMap::Add` (lines 378–419). -/
def OrderedHashMap_Add (hash : Nat → Nat) (table : HashTbl) (key : Nat)
    (value : Obj) : Option HashTbl :=
  let h := hash key
  if 0 < table.data.numElements ∧ chainFindKey table.data h (Obj.val key) ≠ none then
    some table
  else
    match ensureCapacityForAdding 2 hash table with
    | none => none
    | some table =>
      let d := table.data
      let bucket := hashToBucket d h
      let previousEntry := hashToEntry d h
      let nof := d.numElements
      let newEntry := usedCapacityN d
      let d := setSlot d newEntry ⟨[Obj.val key, value], previousEntry⟩
      let d := setBucket d bucket (some newEntry)
      let d := { d with numElements := nof + 1 }
      some (table.withData d)

/-- Mirrors `OrderedNameDictionary::Add` (lines 458–492); the caller guarantees the
key is absent (DCHECK), so there is no duplicate check. -/
def OrderedNameDictionary_Add (hash : Nat → Nat) (table : HashTbl) (key : Nat)
    (value : Obj) (details : Obj) : Option HashTbl :=
  match ensureCapacityForAdding 3 hash table with
  | none => none
  | some table =>
    let d := table.data
    let h := hash key
    let bucket := hashToBucket d h
    let previousEntry := hashToEntry d h
    let nof := d.numElements
    let newEntry := usedCapacityN d
    let d := setSlot d newEntry ⟨[Obj.val key, value, details], previousEntry⟩
    let d := setBucket d bucket (some newEntry)
    let d := { d with numElements := nof + 1 }
    some (table.withData d)

/-- Mirrors `OrderedHashMap::SetEntry` (lines 421–426): overwrite key and value of
an entry in place; the chain link is untouched. -/
def OrderedHashMap_SetEntry (d : TblData) (e : Nat) (key value : Obj) : TblData :=
  setSlot d e ⟨[key, value], chainAt d e⟩

/-- The value stored for `k` in a large-form Map, via the same chain walk
that the code's lookup uses. -/
def mapLookup (hash : Nat → Nat) (d : TblData) (k : Nat) : Option Obj :=
  (chainFindKey d (hash k) (Obj.val k)).map fun e => (slotAt d e).fields.getD 1 Obj.hole

/-! ### Small inline form -/

/-- kMaxCapacity of the small form: bucket and chain cells are single bytes
with 0xFF reserved as kNotFound (spec: 254). -/
def kMaxCapacity : Nat := 254

/-- kGrowthHack (spec: 256): a doubling that lands exactly on this boundary
is mapped down to kMaxCapacity. -/
def kGrowthHack : Nat := 256

/-- Modelled from the spec: `OrderedHashTableMinSize` is declared in
`ordered-hash-table.h`, which is not part of the sources; the spec only says
promotion builds "a fresh large table of size ordered_hash_table_min_size".
The concrete value is immaterial because the large `Add` grows on demand. -/
def OrderedHashTableMinSize : Nat := 127

/-- The small inline form: byte buckets and chain cells, a data table of
`capacity` rows of `kEntrySize` payload fields each.  The small form has no
`next_table` and no removed-indices log. -/
structure SmallTbl where
  numBuckets : Nat
  buckets : List (Option Nat)
  numElements : Nat
  numDeleted : Nat
  dataTable : List (List Obj)
  chains : List (Option Nat)
deriving DecidableEq

def smallCapacity (s : SmallTbl) : Nat := s.numBuckets * kLoadFactor

def smallUsed (s : SmallTbl) : Nat := s.numElements + s.numDeleted

def smallRowAt (s : SmallTbl) (e : Nat) : List Obj := (s.dataTable.get? e).getD []

def smallKeyAt (s : SmallTbl) (e : Nat) : Obj := rowKey (smallRowAt s e)

/-- Mirrors `HashToBucket` for the small form: the bucket count need not be a power
of two, so modulo is used (spec §4.1). -/
def smallHashToBucket (s : SmallTbl) (h : Nat) : Nat := h % s.numBuckets

/-- Mirrors `HashToFirstEntry(hash)`. -/
def smallHashToFirstEntry (s : SmallTbl) (h : Nat) : Option Nat :=
  (s.buckets.get? (smallHashToBucket s h)).getD none

/-- Mirrors `GetNextEntry(entry)`. -/
def smallGetNextEntry (s : SmallTbl) (e : Nat) : Option Nat :=
  (s.chains.get? e).getD none

/-- Mirrors `SetDataEntry(entry, index, value)`. -/
def smallSetData (s : SmallTbl) (e i : Nat) (v : Obj) : SmallTbl :=
  { s with dataTable := s.dataTable.set e ((smallRowAt s e).set i v) }

/-- The chain walk of `SmallOrderedHashTable::FindEntry` (lines 1004–1021),
fueled like the large-form walk. -/
def smallChainFind (s : SmallTbl) (k : Obj) : Nat → Option Nat → Option Nat
  | _, none => none
  | 0, some _ => none
  | fuel + 1, some e =>
    if smallKeyAt s e = k then some e else smallChainFind s k fuel (smallGetNextEntry s e)

/-- Mirrors `SmallOrderedHashTable::FindEntry`: a key without an identity hash
(`hashed k = false`, `GetHash()` undefined) is never found; otherwise walk
the chain of the key's bucket. -/
def smallFindEntry (hash : Nat → Nat) (hashed : Nat → Bool) (s : SmallTbl)
    (k : Nat) : Option Nat :=
  if hashed k then
    smallChainFind s (Obj.val k) (s.dataTable.length + 1) (smallHashToFirstEntry s (hash k))
  else none

/-- Mirrors `SmallOrderedHashTable::HasKey` (lines 862–867). -/
def smallHasKey (hash : Nat → Nat) (hashed : Nat → Bool) (s : SmallTbl)
    (k : Nat) : Bool :=
  (smallFindEntry hash hashed s k).isSome

/-- Mirrors `SmallOrderedHashTable::Initialize` / `Allocate` (lines 636–694):
`capacity / kLoadFactor` buckets, all bucket and chain cells kNotFound, all
payload cells the hole sentinel, zero counters. -/
def smallAllocate (es : Nat) (capacity : Nat) : SmallTbl :=
  { numBuckets := capacity / kLoadFactor
    buckets := List.replicate (capacity / kLoadFactor) none
    numElements := 0
    numDeleted := 0
    dataTable := List.replicate capacity (List.replicate es Obj.hole)
    chains := List.replicate capacity none }

/-- The entry-migration loop of `SmallOrderedHashTable::Rehash`
(lines 908–944): walk the source rows in slot order, skip holes, re-bucket
and append each surviving row. -/
def smallRehashLoop (hash : Nat → Nat) :
    List (List Obj) → SmallTbl → Nat → SmallTbl × Nat
  | [], nt, ne => (nt, ne)
  | row :: rows, nt, ne =>
    let key := rowKey row
    if key = Obj.hole then
      smallRehashLoop hash rows nt ne
    else
      let h := objHash hash key
      let bucket := smallHashToBucket nt h
      let chain := smallHashToFirstEntry nt h
      let nt := { nt with buckets := nt.buckets.set bucket (some ne) }
      let nt := { nt with chains := nt.chains.set ne chain }
      let nt := { nt with dataTable := nt.dataTable.set ne row }
      smallRehashLoop hash rows nt (ne + 1)

/-- Mirrors `SmallOrderedHashTable::Rehash` (lines 908–944). -/
def smallRehash (hash : Nat → Nat) (es : Nat) (s : SmallTbl) (newCapacity : Nat) :
    SmallTbl :=
  let nt := smallAllocate es newCapacity
  let (nt, _) := smallRehashLoop hash (s.dataTable.take (smallUsed s)) nt 0
  { nt with numElements := s.numElements }

/-- Mirrors `SmallOrderedHashTable::Grow` (lines 977–1002): compact at the same
capacity when half the slots are tombstones, otherwise double, mapping a
doubling that lands on kGrowthHack down to kMaxCapacity and failing above
kMaxCapacity. -/
def smallGrow (hash : Nat → Nat) (es : Nat) (s : SmallTbl) : Option SmallTbl :=
  let capacity := smallCapacity s
  if s.numDeleted < capacity / 2 then
    let newCapacity := capacity * 2
    let newCapacity := if newCapacity = kGrowthHack then kMaxCapacity else newCapacity
    if kMaxCapacity < newCapacity then none
    else some (smallRehash hash es s newCapacity)
  else
    some (smallRehash hash es s capacity)

/-- Mirrors `SmallOrderedHashSet::Add` (lines 696–728). -/
def SmallOrderedHashSet_Add (hash : Nat → Nat) (hashed : Nat → Bool)
    (table : SmallTbl) (key : Nat) : Option SmallTbl :=
  if smallHasKey hash hashed table key then some table
  else
    match (if smallCapacity table ≤ smallUsed table
           then smallGrow hash 1 table else some table) with
    | none => none
    | some table =>
      let h := hash key
      let nof := table.numElements
      let bucket := smallHashToBucket table h
      let previousEntry := smallHashToFirstEntry table h
      let newEntry := nof + table.numDeleted
      let table := smallSetData table newEntry 0 (Obj.val key)
      let table := { table with buckets := table.buckets.set bucket (some newEntry) }
      let table := { table with chains := table.chains.set newEntry previousEntry }
      some { table with numElements := nof + 1 }

/-- Mirrors `SmallOrderedHashMap::Add` (lines 740–773). -/
def SmallOrderedHashMap_Add (hash : Nat → Nat) (hashed : Nat → Bool)
    (table : SmallTbl) (key : Nat) (value : Obj) : Option SmallTbl :=
  if smallHasKey hash hashed table key then some table
  else
    match (if smallCapacity table ≤ smallUsed table
           then smallGrow hash 2 table else some table) with
    | none => none
    | some table =>
      let h := hash key
      let nof := table.numElements
      let bucket := smallHashToBucket table h
      let previousEntry := smallHashToFirstEntry table h
      let newEntry := nof + table.numDeleted
      let table := smallSetData table newEntry 1 value
      let table := smallSetData table newEntry 0 (Obj.val key)
      let table := { table with buckets := table.buckets.set bucket (some newEntry) }
      let table := { table with chains := table.chains.set newEntry previousEntry }
      some { table with numElements := nof + 1 }

/-- Mirrors `SmallOrderedNameDictionary::Add` (lines 806–846); the caller guarantees
the key is absent (DCHECK), so there is no duplicate check. -/
def SmallOrderedNameDictionary_Add (hash : Nat → Nat) (table : SmallTbl)
    (key : Nat) (value : Obj) (details : Obj) : Option SmallTbl :=
  match (if smallCapacity table ≤ smallUsed table
         then smallGrow hash 3 table else some table) with
  | none => none
  | some table =>
    let h := hash key
    let nof := table.numElements
    let bucket := smallHashToBucket table h
    let previousEntry := smallHashToFirstEntry table h
    let newEntry := nof + table.numDeleted
    let table := smallSetData table newEntry 1 value
    let table := smallSetData table newEntry 0 (Obj.val key)
    let table := smallSetData table newEntry 2 details
    let table := { table with buckets := table.buckets.set bucket (some newEntry) }
    let table := { table with chains := table.chains.set newEntry previousEntry }
    some { table with numElements := nof + 1 }

/-! ### Handler facade (Set variant) -/

/-- Mirrors `OrderedHashSetHandler::AdjustRepresentation` (lines 1162–1184):
allocate a large table of `OrderedHashTableMinSize` and re-insert every live
entry of the small table in slot order. -/
def OrderedHashSetHandler_AdjustRepresentation (hash : Nat → Nat)
    (table : SmallTbl) : Option HashTbl :=
  match allocate 1 OrderedHashTableMinSize with
  | none => none
  | some newTable =>
    (table.dataTable.take (smallUsed table)).foldl
      (fun acc row =>
        acc.bind fun t =>
          match rowKey row with
          | Obj.hole => some t
          | Obj.val k => OrderedHashSet_Add hash t k)
      (some newTable)

/-- Mirrors `OrderedHashSetHandler::Add` (lines 1239–1260): try the small form;
when the small add fails, promote via `AdjustRepresentation` and add to the
large table. -/
def OrderedHashSetHandler_Add (hash : Nat → Nat) (hashed : Nat → Bool)
    (table : SmallTbl ⊕ HashTbl) (key : Nat) : Option (SmallTbl ⊕ HashTbl) :=
  match table with
  | Sum.inl small =>
    match SmallOrderedHashSet_Add hash hashed small key with
    | some t => some (Sum.inl t)
    | none =>
      match OrderedHashSetHandler_AdjustRepresentation hash small with
      | none => none
      | some large => (OrderedHashSet_Add hash large key).map Sum.inr
  | Sum.inr large => (OrderedHashSet_Add hash large key).map Sum.inr

/-! ### Iterator transition -/

/-- The removed-indices scan of `OrderedHashTableIterator::Transition`
(lines 1446–1450): scan the recorded removed indices in ascending order,
stop at the first one at least the entering index, decrement once for each
one strictly below it. -/
def removedScan (oldIndex : Int) : List Nat → Int → Int
  | [], index => index
  | r :: rs, index =>
    if oldIndex ≤ (r : Int) then index else removedScan oldIndex rs (index - 1)

/-- Mirrors `OrderedHashTableIterator::Transition` (lines 1428–1459): follow the
`next_table` chain while the referenced table is obsolete, adjusting the
index across each obsolete predecessor. -/
def transition : HashTbl → Int → HashTbl × Int
  | HashTbl.base d, index => (HashTbl.base d, index)
  | HashTbl.chained d nx, index =>
    let index :=
      if 0 < index then
        if d.numDeleted = kClearedTableSentinel then 0
        else removedScan index (d.removed.take d.numDeleted.toNat) index
      else index
    transition nx index

/-! ### Basic facts -/

theorem rup2go_ge (n : Nat) :
    ∀ fuel acc, n ≤ acc * 2 ^ fuel → n ≤ rup2go n fuel acc := by
  intro fuel
  induction fuel with
  | zero => intro acc h; simpa [rup2go] using h
  | succ m ih =>
    intro acc h
    rw [rup2go]
    split
    · assumption
    · refine ih (acc * 2) ?_
      have e : acc * 2 * 2 ^ m = acc * 2 ^ (m + 1) := by ring
      exact e ▸ h

theorem rup2go_min (n j : Nat) (hn : n ≤ 2 ^ j) :
    ∀ fuel i, i ≤ j → rup2go n fuel (2 ^ i) ≤ 2 ^ j := by
  intro fuel
  induction fuel with
  | zero => intro i hij; simpa [rup2go] using Nat.pow_le_pow_right (by norm_num) hij
  | succ m ih =>
    intro i hij
    rw [rup2go]
    split
    · exact Nat.pow_le_pow_right (by norm_num) hij
    · rename_i hlt
      have hij' : i < j := by
        by_contra hc
        have : i = j := le_antisymm hij (not_lt.1 hc)
        exact hlt (this ▸ hn)
      have : (2 : Nat) ^ i * 2 = 2 ^ (i + 1) := by rw [Nat.pow_succ]
      rw [this]
      exact ih (i + 1) hij'

theorem rup2go_pow (n : Nat) :
    ∀ fuel i, ∃ k, rup2go n fuel (2 ^ i) = 2 ^ k := by
  intro fuel
  induction fuel with
  | zero => intro i; exact ⟨i, rfl⟩
  | succ m ih =>
    intro i
    rw [rup2go]
    split
    · exact ⟨i, rfl⟩
    · have : (2 : Nat) ^ i * 2 = 2 ^ (i + 1) := by rw [Nat.pow_succ]
      rw [this]
      exact ih (i + 1)

theorem le_roundUpPow2 (n : Nat) : n ≤ roundUpPow2 n :=
  rup2go_ge n n 1 (by simpa using Nat.le_of_lt (Nat.lt_two_pow n))

theorem roundUpPow2_le {n j : Nat} (h : n ≤ 2 ^ j) : roundUpPow2 n ≤ 2 ^ j := by
  have := rup2go_min n j h n 0 (Nat.zero_le j)
  simpa [roundUpPow2] using this

theorem roundUpPow2_isPow (n : Nat) : ∃ k, roundUpPow2 n = 2 ^ k := by
  have := rup2go_pow n n 0
  simpa [roundUpPow2] using this

theorem data_withData (t : HashTbl) (d : TblData) : (t.withData d).data = d := by
  cases t <;> rfl

/-- C9: large-form `Allocate` rounds the request up to a power of two no
smaller than `kInitialCapacity` (and no larger than necessary), fails with a
range error exactly when the rounded capacity exceeds `MaxCapacity()`, and
on success produces a table with `capacity / kLoadFactor` buckets all set to
kNotFound and with element count, deleted count and used capacity all
zero. -/
theorem claim_C9 (es capacity : Nat) :
    (∃ k, roundUpPow2 (max kInitialCapacity capacity) = 2 ^ k) ∧
    kInitialCapacity ≤ roundUpPow2 (max kInitialCapacity capacity) ∧
    capacity ≤ roundUpPow2 (max kInitialCapacity capacity) ∧
    (∀ j, max kInitialCapacity capacity ≤ 2 ^ j →
      roundUpPow2 (max kInitialCapacity capacity) ≤ 2 ^ j) ∧
    (maxCapacity < roundUpPow2 (max kInitialCapacity capacity) →
      allocate es capacity = none) ∧
    (roundUpPow2 (max kInitialCapacity capacity) ≤ maxCapacity →
      ∃ d, allocate es capacity = some (HashTbl.base d) ∧
        d.numBuckets = roundUpPow2 (max kInitialCapacity capacity) / kLoadFactor ∧
        d.buckets.length = d.numBuckets ∧ (∀ b ∈ d.buckets, b = none) ∧
        d.slots.length = roundUpPow2 (max kInitialCapacity capacity) ∧
        d.numElements = 0 ∧ d.numDeleted = 0 ∧ usedCapacityN d = 0) := by
  refine ⟨roundUpPow2_isPow _, ?_, ?_, ?_, ?_, ?_⟩
  · exact le_trans (le_max_left _ _) (le_roundUpPow2 _)
  · exact le_trans (le_max_right _ _) (le_roundUpPow2 _)
  · exact fun j hj => roundUpPow2_le hj
  · intro h
    simp only [allocate]
    rw [if_pos h]
  · intro h
    simp only [allocate]
    rw [if_neg (not_lt.2 h)]
    refine ⟨_, rfl, rfl, by simp, ?_, by simp, rfl, rfl, rfl⟩
    intro b hb
    exact List.eq_of_mem_replicate hb

/-- Witness for C9 at concrete inputs: a request of 5 rounds up to 8 and
succeeds; a request just above the maximum capacity fails. -/
theorem claim_C9_witness :
    (maxCapacity < roundUpPow2 (max kInitialCapacity (2 ^ 21 + 1)) →
      allocate 1 (2 ^ 21 + 1) = none) ∧
    (allocate 1 (2 ^ 21 + 1) = none) ∧
    (roundUpPow2 (max kInitialCapacity 5) ≤ maxCapacity →
      ∃ d, allocate 2 5 = some (HashTbl.base d) ∧
        d.numBuckets = roundUpPow2 (max kInitialCapacity 5) / kLoadFactor ∧
        d.buckets.length = d.numBuckets ∧ (∀ b ∈ d.buckets, b = none) ∧
        d.slots.length = roundUpPow2 (max kInitialCapacity 5) ∧
        d.numElements = 0 ∧ d.numDeleted = 0 ∧ usedCapacityN d = 0) := by
  refine ⟨(claim_C9 1 (2 ^ 21 + 1)).2.2.2.2.1, ?_, (claim_C9 2 5).2.2.2.2.2⟩
  exact (claim_C9 1 (2 ^ 21 + 1)).2.2.2.2.1 (by decide)

/-- The allocation performed by `Clear` always succeeds and yields the
fresh initial-capacity table. -/
theorem allocate_initial (es : Nat) :
    allocate es kInitialCapacity =
      some (HashTbl.base
        { numBuckets := 2, buckets := [none, none], numElements := 0,
          numDeleted := 0, slots := List.replicate 4 (defaultSlot es),
          removed := [] }) := by
  simp only [allocate]
  rw [show roundUpPow2 (max kInitialCapacity kInitialCapacity) = 4 from by decide]
  rw [if_neg (by decide)]
  rfl

/-- C8: `Clear` on a non-obsolete table returns a fresh table of
`kInitialCapacity` with zero elements; it chains the old table to the fresh
one and stamps the cleared-table sentinel into its deleted count exactly
when the old table has a nonzero bucket count, and leaves the canonical
empty table (zero buckets) untouched. -/
theorem claim_C8 (es : Nat) (d : TblData) :
    ∃ nt, clear es (HashTbl.base d) =
        some (HashTbl.base nt,
          if 0 < d.numBuckets
          then HashTbl.chained { d with numDeleted := kClearedTableSentinel }
                 (HashTbl.base nt)
          else HashTbl.base d) ∧
      nt.numElements = 0 ∧ usedCapacityN nt = 0 ∧
      tblCapacity nt = kInitialCapacity := by
  refine ⟨{ numBuckets := 2, buckets := [none, none], numElements := 0,
            numDeleted := 0, slots := List.replicate 4 (defaultSlot es),
            removed := [] }, ?_, rfl, rfl, rfl⟩
  simp only [clear, allocate_initial, HashTbl.data_base]
  by_cases h : 0 < d.numBuckets
  · rw [if_pos h, if_pos h]
  · rw [if_neg h, if_neg h]

/-- Witness for C8: clearing a one-bucket table chains it to the fresh
table; clearing the canonical empty table writes nothing. -/
theorem claim_C8_witness :
    (∃ nt, clear 1 (HashTbl.base
          { numBuckets := 1, buckets := [some 0], numElements := 1,
            numDeleted := 0, slots := [⟨[Obj.val 3], none⟩, defaultSlot 1],
            removed := [] }) =
        some (HashTbl.base nt,
          if 0 < (1 : Nat)
          then HashTbl.chained
                 { numBuckets := 1, buckets := [some 0], numElements := 1,
                   numDeleted := kClearedTableSentinel,
                   slots := [⟨[Obj.val 3], none⟩, defaultSlot 1], removed := [] }
                 (HashTbl.base nt)
          else HashTbl.base
            { numBuckets := 1, buckets := [some 0], numElements := 1,
              numDeleted := 0, slots := [⟨[Obj.val 3], none⟩, defaultSlot 1],
              removed := [] }) ∧
      nt.numElements = 0 ∧ usedCapacityN nt = 0 ∧
      tblCapacity nt = kInitialCapacity) ∧
    (∃ nt, clear 1 (HashTbl.base
          { numBuckets := 0, buckets := [], numElements := 0, numDeleted := 0,
            slots := [], removed := [] }) =
        some (HashTbl.base nt,
          if 0 < (0 : Nat)
          then HashTbl.chained
                 { numBuckets := 0, buckets := [], numElements := 0,
                   numDeleted := kClearedTableSentinel, slots := [], removed := [] }
                 (HashTbl.base nt)
          else HashTbl.base
            { numBuckets := 0, buckets := [], numElements := 0, numDeleted := 0,
              slots := [], removed := [] }) ∧
      nt.numElements = 0 ∧ usedCapacityN nt = 0 ∧
      tblCapacity nt = kInitialCapacity) :=
  ⟨claim_C8 1 _, claim_C8 1 _⟩

/-- C5: `EnsureCapacityForAdding` on a non-obsolete table returns the table
unchanged when `nof + nod < capacity`; otherwise it rehashes at
`kInitialCapacity` when the capacity is zero, at the same capacity when the
deleted count reaches half the capacity, and at twice the capacity
otherwise. -/
theorem claim_C5 (es : Nat) (hash : Nat → Nat) (d : TblData) :
    ((d.numElements : Int) + d.numDeleted < (tblCapacity d : Int) →
      ensureCapacityForAdding es hash (HashTbl.base d) = some (HashTbl.base d)) ∧
    (¬ ((d.numElements : Int) + d.numDeleted < (tblCapacity d : Int)) →
      (tblCapacity d = 0 →
        ensureCapacityForAdding es hash (HashTbl.base d) =
          (rehash es hash (HashTbl.base d) kInitialCapacity).map Prod.fst) ∧
      (0 < tblCapacity d →
        ((tblCapacity d / 2 : Nat) : Int) ≤ d.numDeleted →
        ensureCapacityForAdding es hash (HashTbl.base d) =
          (rehash es hash (HashTbl.base d) (tblCapacity d)).map Prod.fst) ∧
      (0 < tblCapacity d →
        d.numDeleted < ((tblCapacity d / 2 : Nat) : Int) →
        ensureCapacityForAdding es hash (HashTbl.base d) =
          (rehash es hash (HashTbl.base d) (tblCapacity d * 2)).map Prod.fst)) := by
  constructor
  · intro h
    simp only [ensureCapacityForAdding, HashTbl.data_base]
    rw [if_pos h]
  · intro h
    refine ⟨fun hc => ?_, fun hc hnod => ?_, fun hc hnod => ?_⟩
    · simp only [ensureCapacityForAdding, HashTbl.data_base]
      rw [if_neg h, if_pos hc]
    · simp only [ensureCapacityForAdding, HashTbl.data_base]
      rw [if_neg h, if_neg (Nat.pos_iff_ne_zero.1 hc), if_pos hnod]
    · simp only [ensureCapacityForAdding, HashTbl.data_base]
      rw [if_neg h, if_neg (Nat.pos_iff_ne_zero.1 hc), if_neg (not_le.2 hnod)]

/-- A quarter-full table used in the C5 witness. -/
def wC5roomy : TblData :=
  { numBuckets := 2, buckets := [some 0, none], numElements := 1,
    numDeleted := 0,
    slots := [⟨[Obj.val 2], none⟩, defaultSlot 1, defaultSlot 1, defaultSlot 1],
    removed := [] }

/-- A full half-tombstoned table used in the C5 witness. -/
def wC5deleted : TblData :=
  { numBuckets := 1, buckets := [some 1], numElements := 1, numDeleted := 1,
    slots := [⟨[Obj.hole], none⟩, ⟨[Obj.val 5], some 0⟩], removed := [] }

/-- A full live table used in the C5 witness. -/
def wC5full : TblData :=
  { numBuckets := 1, buckets := [some 0], numElements := 2, numDeleted := 0,
    slots := [⟨[Obj.val 1], none⟩, ⟨[Obj.val 2], some 0⟩], removed := [] }

/-- A canonical empty table used in the C5 witness. -/
def wC5empty : TblData :=
  { numBuckets := 0, buckets := [], numElements := 0, numDeleted := 0,
    slots := [], removed := [] }

/-- Witness for C5: a table with room is returned unchanged; a full table
that is half tombstones rehashes at the same capacity; a full live table
rehashes at twice the capacity; the canonical empty table steps to
`kInitialCapacity`. -/
theorem claim_C5_witness :
    ensureCapacityForAdding 1 id (HashTbl.base wC5roomy) =
      some (HashTbl.base wC5roomy) ∧
    ensureCapacityForAdding 1 id (HashTbl.base wC5deleted) =
      (rehash 1 id (HashTbl.base wC5deleted) (tblCapacity wC5deleted)).map Prod.fst ∧
    ensureCapacityForAdding 1 id (HashTbl.base wC5full) =
      (rehash 1 id (HashTbl.base wC5full) (tblCapacity wC5full * 2)).map Prod.fst ∧
    ensureCapacityForAdding 1 id (HashTbl.base wC5empty) =
      (rehash 1 id (HashTbl.base wC5empty) kInitialCapacity).map Prod.fst := by
  refine ⟨(claim_C5 1 id wC5roomy).1 (by decide), ?_, ?_, ?_⟩
  · exact ((claim_C5 1 id wC5deleted).2 (by decide)).2.1 (by decide) (by decide)
  · exact ((claim_C5 1 id wC5full).2 (by decide)).2.2 (by decide) (by decide)
  · exact ((claim_C5 1 id wC5empty).2 (by decide)).1 (by decide)

/-- C7: small-form `Grow` rehashes at the same capacity when the deleted
count reaches half the capacity; otherwise it doubles, mapping a doubled
capacity equal to `kGrowthHack` (256) down to `kMaxCapacity` (254), and
fails — triggering promotion by the caller — exactly when the adjusted
doubled capacity exceeds `kMaxCapacity`. -/
theorem claim_C7 (hash : Nat → Nat) (es : Nat) (s : SmallTbl) :
    (smallCapacity s / 2 ≤ s.numDeleted →
      smallGrow hash es s = some (smallRehash hash es s (smallCapacity s))) ∧
    (s.numDeleted < smallCapacity s / 2 →
      (kMaxCapacity <
          (if smallCapacity s * 2 = kGrowthHack then kMaxCapacity
           else smallCapacity s * 2) →
        smallGrow hash es s = none) ∧
      ((if smallCapacity s * 2 = kGrowthHack then kMaxCapacity
        else smallCapacity s * 2) ≤ kMaxCapacity →
        smallGrow hash es s =
          some (smallRehash hash es s
            (if smallCapacity s * 2 = kGrowthHack then kMaxCapacity
             else smallCapacity s * 2)))) := by
  constructor
  · intro h
    simp only [smallGrow]
    rw [if_neg (not_lt.2 h)]
  · intro h
    constructor
    · intro hbig
      simp only [smallGrow]
      rw [if_pos h, if_pos hbig]
    · intro hok
      simp only [smallGrow]
      rw [if_pos h, if_neg (not_lt.2 hok)]

/-- A full capacity-254 small table (maximal capacity) used in witnesses;
grow on it must fail. -/
def wFull254 : SmallTbl :=
  { numBuckets := 127, buckets := List.replicate 127 none, numElements := 254,
    numDeleted := 0,
    dataTable := (List.range 254).map (fun i => [Obj.val i]),
    chains := List.replicate 254 none }

/-- A full capacity-128 small table used in witnesses; grow on it lands on
the growth hack and succeeds at capacity 254. -/
def wFull128 : SmallTbl :=
  { numBuckets := 64, buckets := List.replicate 64 none, numElements := 128,
    numDeleted := 0,
    dataTable := (List.range 128).map (fun i => [Obj.val i]),
    chains := List.replicate 128 none }

/-- A half-tombstoned capacity-8 small table used in witnesses; grow on it
compacts at the same capacity. -/
def wHalfDel8 : SmallTbl :=
  { numBuckets := 4, buckets := List.replicate 4 none, numElements := 3,
    numDeleted := 5,
    dataTable := [[Obj.val 0], [Obj.hole], [Obj.val 2], [Obj.hole], [Obj.hole],
                  [Obj.val 5], [Obj.hole], [Obj.hole]],
    chains := List.replicate 8 none }

/-- Witness for C7 at concrete tables: compaction at the same capacity,
growth-hack doubling 128 → 254, and failure at capacity 254. -/
theorem claim_C7_witness :
    smallGrow id 1 wHalfDel8 = some (smallRehash id 1 wHalfDel8 (smallCapacity wHalfDel8)) ∧
    smallGrow id 1 wFull254 = none ∧
    smallGrow id 1 wFull128 =
      some (smallRehash id 1 wFull128
        (if smallCapacity wFull128 * 2 = kGrowthHack then kMaxCapacity
         else smallCapacity wFull128 * 2)) := by
  refine ⟨(claim_C7 id 1 wHalfDel8).1 (by decide), ?_, ?_⟩
  · exact ((claim_C7 id 1 wFull254).2 (by decide)).1 (by decide)
  · exact ((claim_C7 id 1 wFull128).2 (by decide)).2 (by decide)

/-- C6: adding a key that the table's own membership walk already finds
(same-value-zero equality along the bucket chain) returns the very same
table, for the Set and Map variants in both forms: no counter changes and no
payload, bucket or chain write occurs. -/
theorem claim_C6 :
    (∀ (hash : Nat → Nat) (t : HashTbl) (k : Nat),
      0 < t.data.numElements →
      chainFindKey t.data (hash k) (Obj.val k) ≠ none →
      OrderedHashSet_Add hash t k = some t) ∧
    (∀ (hash : Nat → Nat) (t : HashTbl) (k : Nat) (v : Obj),
      0 < t.data.numElements →
      chainFindKey t.data (hash k) (Obj.val k) ≠ none →
      OrderedHashMap_Add hash t k v = some t) ∧
    (∀ (hash : Nat → Nat) (hashed : Nat → Bool) (s : SmallTbl) (k : Nat),
      smallHasKey hash hashed s k = true →
      SmallOrderedHashSet_Add hash hashed s k = some s) ∧
    (∀ (hash : Nat → Nat) (hashed : Nat → Bool) (s : SmallTbl) (k : Nat) (v : Obj),
      smallHasKey hash hashed s k = true →
      SmallOrderedHashMap_Add hash hashed s k v = some s) := by
  refine ⟨?_, ?_, ?_, ?_⟩
  · intro hash t k h1 h2
    simp only [OrderedHashSet_Add]
    rw [if_pos ⟨h1, h2⟩]
  · intro hash t k v h1 h2
    simp only [OrderedHashMap_Add]
    rw [if_pos ⟨h1, h2⟩]
  · intro hash hashed s k h
    simp only [SmallOrderedHashSet_Add]
    rw [if_pos h]
  · intro hash hashed s k v h
    simp only [SmallOrderedHashMap_Add]
    rw [if_pos h]

/-- A one-element large Set/Map table holding key 3 (with value 7 in the
Map reading), used in duplicate-add witnesses. -/
def wDup : TblData :=
  { numBuckets := 2, buckets := [none, some 0], numElements := 1,
    numDeleted := 0,
    slots := [⟨[Obj.val 3, Obj.val 7], none⟩, defaultSlot 2, defaultSlot 2,
              defaultSlot 2],
    removed := [] }

/-- A one-element small Set/Map table holding key 3 (with value 7 in the
Map reading), used in duplicate-add witnesses. -/
def wDupSmall : SmallTbl :=
  { numBuckets := 2, buckets := [none, some 0], numElements := 1,
    numDeleted := 0,
    dataTable := [[Obj.val 3, Obj.val 7], [Obj.hole, Obj.hole],
                  [Obj.hole, Obj.hole], [Obj.hole, Obj.hole]],
    chains := [none, none, none, none] }

/-- Witness for C6: duplicate adds of key 3 leave all four concrete tables
untouched. -/
theorem claim_C6_witness :
    OrderedHashSet_Add id (HashTbl.base wDup) 3 = some (HashTbl.base wDup) ∧
    OrderedHashMap_Add id (HashTbl.base wDup) 3 (Obj.val 9) = some (HashTbl.base wDup) ∧
    SmallOrderedHashSet_Add id (fun _ => true) wDupSmall 3 = some wDupSmall ∧
    SmallOrderedHashMap_Add id (fun _ => true) wDupSmall 3 (Obj.val 9) = some wDupSmall :=
  ⟨claim_C6.1 id (HashTbl.base wDup) 3 (by decide) (by decide),
   claim_C6.2.1 id (HashTbl.base wDup) 3 (Obj.val 9) (by decide) (by decide),
   claim_C6.2.2.1 id (fun _ => true) wDupSmall 3 (by decide),
   claim_C6.2.2.2 id (fun _ => true) wDupSmall 3 (Obj.val 9) (by decide)⟩

/-- The value stored for `k` in a small-form Map, via the code's
`FindEntry`. -/
def smallMapLookup (hash : Nat → Nat) (hashed : Nat → Bool) (s : SmallTbl)
    (k : Nat) : Option Obj :=
  (smallFindEntry hash hashed s k).map fun e => (smallRowAt s e).getD 1 Obj.hole

/-- C10: adding an already-present key with a different value does not
overwrite the stored value, in either form: the add returns the same table
and the lookup still yields the old value.  Updating a value is the job of
the separate `SetEntry`, which does overwrite in place. -/
theorem claim_C10 :
    (∀ (hash : Nat → Nat) (t : HashTbl) (k : Nat) (v v' : Obj),
      0 < t.data.numElements →
      mapLookup hash t.data k = some v →
      OrderedHashMap_Add hash t k v' = some t ∧
      (OrderedHashMap_Add hash t k v').map (fun r => mapLookup hash r.data k) =
        some (some v)) ∧
    (∀ (hash : Nat → Nat) (hashed : Nat → Bool) (s : SmallTbl) (k : Nat) (v v' : Obj),
      smallMapLookup hash hashed s k = some v →
      SmallOrderedHashMap_Add hash hashed s k v' = some s ∧
      (SmallOrderedHashMap_Add hash hashed s k v').map
          (fun r => smallMapLookup hash hashed r k) = some (some v)) ∧
    (∀ (d : TblData) (e : Nat) (k v : Obj),
      e < d.slots.length →
      (OrderedHashMap_SetEntry d e k v).slots.get? e = some ⟨[k, v], chainAt d e⟩) := by
  refine ⟨?_, ?_, ?_⟩
  · intro hash t k v v' h1 h2
    have hfind : chainFindKey t.data (hash k) (Obj.val k) ≠ none := by
      intro hc
      rw [mapLookup, hc] at h2
      simp at h2
    have hadd : OrderedHashMap_Add hash t k v' = some t := by
      simp only [OrderedHashMap_Add]
      rw [if_pos ⟨h1, hfind⟩]
    exact ⟨hadd, by rw [hadd, Option.map_some', h2]⟩
  · intro hash hashed s k v v' h2
    have hkey : smallHasKey hash hashed s k = true := by
      rw [smallHasKey]
      rcases hfe : smallFindEntry hash hashed s k with _ | e
      · rw [smallMapLookup, hfe] at h2; simp at h2
      · rfl
    have hadd : SmallOrderedHashMap_Add hash hashed s k v' = some s := by
      simp only [SmallOrderedHashMap_Add]
      rw [if_pos hkey]
    exact ⟨hadd, by rw [hadd, Option.map_some', h2]⟩
  · intro d e k v he
    simp only [OrderedHashMap_SetEntry, setSlot]
    exact List.get?_set_eq_of_lt _ he

/-- Witness for C10: the concrete Map tables holding (3 ↦ 7) keep value 7
across an add of (3 ↦ 9); `SetEntry` at entry 0 does overwrite. -/
theorem claim_C10_witness :
    (OrderedHashMap_Add id (HashTbl.base wDup) 3 (Obj.val 9) =
        some (HashTbl.base wDup) ∧
      (OrderedHashMap_Add id (HashTbl.base wDup) 3 (Obj.val 9)).map
        (fun r => mapLookup id r.data 3) = some (some (Obj.val 7))) ∧
    (SmallOrderedHashMap_Add id (fun _ => true) wDupSmall 3 (Obj.val 9) =
        some wDupSmall ∧
      (SmallOrderedHashMap_Add id (fun _ => true) wDupSmall 3 (Obj.val 9)).map
        (fun r => smallMapLookup id (fun _ => true) r 3) = some (some (Obj.val 7))) ∧
    (OrderedHashMap_SetEntry wDup 0 (Obj.val 3) (Obj.val 9)).slots.get? 0 =
      some ⟨[Obj.val 3, Obj.val 9], chainAt wDup 0⟩ :=
  ⟨claim_C10.1 id (HashTbl.base wDup) 3 (Obj.val 7) (Obj.val 9) (by decide) (by decide),
   claim_C10.2.1 id (fun _ => true) wDupSmall 3 (Obj.val 7) (Obj.val 9) (by decide),
   claim_C10.2.2 wDup 0 (Obj.val 3) (Obj.val 9) (by decide)⟩

/-- C2: every successful add that actually inserts writes the new entry at
slot index `number_of_elements + number_of_deleted_elements` (the used
capacity) of the table it finally inserts into (`t'` resp. `s'`, the result
of the capacity step), never touches any payload slot below that index, and
so never reuses a tombstone's slot — for all six add paths: large and small
form, Set, Map and NameDictionary variants. -/
theorem claim_C2 :
    (∀ (hash : Nat → Nat) (t t' : HashTbl) (k : Nat),
      ¬ (0 < t.data.numElements ∧ chainFindKey t.data (hash k) (Obj.val k) ≠ none) →
      ensureCapacityForAdding 1 hash t = some t' →
      usedCapacityN t'.data < t'.data.slots.length →
      ∃ r, OrderedHashSet_Add hash t k = some r ∧
        r.data.slots.get? (usedCapacityN t'.data) =
          some ⟨[Obj.val k], hashToEntry t'.data (hash k)⟩ ∧
        (∀ i < usedCapacityN t'.data, r.data.slots.get? i = t'.data.slots.get? i) ∧
        r.data.numElements = t'.data.numElements + 1) ∧
    (∀ (hash : Nat → Nat) (t t' : HashTbl) (k : Nat) (v : Obj),
      ¬ (0 < t.data.numElements ∧ chainFindKey t.data (hash k) (Obj.val k) ≠ none) →
      ensureCapacityForAdding 2 hash t = some t' →
      usedCapacityN t'.data < t'.data.slots.length →
      ∃ r, OrderedHashMap_Add hash t k v = some r ∧
        r.data.slots.get? (usedCapacityN t'.data) =
          some ⟨[Obj.val k, v], hashToEntry t'.data (hash k)⟩ ∧
        (∀ i < usedCapacityN t'.data, r.data.slots.get? i = t'.data.slots.get? i) ∧
        r.data.numElements = t'.data.numElements + 1) ∧
    (∀ (hash : Nat → Nat) (t t' : HashTbl) (k : Nat) (v det : Obj),
      ensureCapacityForAdding 3 hash t = some t' →
      usedCapacityN t'.data < t'.data.slots.length →
      ∃ r, OrderedNameDictionary_Add hash t k v det = some r ∧
        r.data.slots.get? (usedCapacityN t'.data) =
          some ⟨[Obj.val k, v, det], hashToEntry t'.data (hash k)⟩ ∧
        (∀ i < usedCapacityN t'.data, r.data.slots.get? i = t'.data.slots.get? i) ∧
        r.data.numElements = t'.data.numElements + 1) ∧
    (∀ (hash : Nat → Nat) (hashed : Nat → Bool) (s s' : SmallTbl) (k : Nat),
      smallHasKey hash hashed s k = false →
      (if smallCapacity s ≤ smallUsed s then smallGrow hash 1 s else some s) = some s' →
      s'.numElements + s'.numDeleted < s'.dataTable.length →
      ∃ r, SmallOrderedHashSet_Add hash hashed s k = some r ∧
        r.dataTable.get? (s'.numElements + s'.numDeleted) =
          some ((smallRowAt s' (s'.numElements + s'.numDeleted)).set 0 (Obj.val k)) ∧
        (∀ i < s'.numElements + s'.numDeleted,
          r.dataTable.get? i = s'.dataTable.get? i) ∧
        r.numElements = s'.numElements + 1) ∧
    (∀ (hash : Nat → Nat) (hashed : Nat → Bool) (s s' : SmallTbl) (k : Nat) (v : Obj),
      smallHasKey hash hashed s k = false →
      (if smallCapacity s ≤ smallUsed s then smallGrow hash 2 s else some s) = some s' →
      s'.numElements + s'.numDeleted < s'.dataTable.length →
      ∃ r, SmallOrderedHashMap_Add hash hashed s k v = some r ∧
        r.dataTable.get? (s'.numElements + s'.numDeleted) =
          some (((smallRowAt s' (s'.numElements + s'.numDeleted)).set 1 v).set 0
            (Obj.val k)) ∧
        (∀ i < s'.numElements + s'.numDeleted,
          r.dataTable.get? i = s'.dataTable.get? i) ∧
        r.numElements = s'.numElements + 1) ∧
    (∀ (hash : Nat → Nat) (s s' : SmallTbl) (k : Nat) (v det : Obj),
      (if smallCapacity s ≤ smallUsed s then smallGrow hash 3 s else some s) = some s' →
      s'.numElements + s'.numDeleted < s'.dataTable.length →
      ∃ r, SmallOrderedNameDictionary_Add hash s k v det = some r ∧
        r.dataTable.get? (s'.numElements + s'.numDeleted) =
          some ((((smallRowAt s' (s'.numElements + s'.numDeleted)).set 1 v).set 0
            (Obj.val k)).set 2 det) ∧
        (∀ i < s'.numElements + s'.numDeleted,
          r.dataTable.get? i = s'.dataTable.get? i) ∧
        r.numElements = s'.numElements + 1) := by
  refine ⟨?_, ?_, ?_, ?_, ?_, ?_⟩
  · intro hash t t' k hneg hens hlt
    simp only [OrderedHashSet_Add]
    rw [if_neg hneg, hens]
    refine ⟨_, rfl, ?_, ?_, by rw [data_withData]⟩
    · simp only [data_withData, setBucket, setSlot]
      exact List.get?_set_eq_of_lt _ hlt
    · intro i hi
      simp only [data_withData, setBucket, setSlot]
      exact List.get?_set_ne _ _ (Nat.ne_of_gt hi)
  · intro hash t t' k v hneg hens hlt
    simp only [OrderedHashMap_Add]
    rw [if_neg hneg, hens]
    refine ⟨_, rfl, ?_, ?_, by rw [data_withData]⟩
    · simp only [data_withData, setBucket, setSlot]
      exact List.get?_set_eq_of_lt _ hlt
    · intro i hi
      simp only [data_withData, setBucket, setSlot]
      exact List.get?_set_ne _ _ (Nat.ne_of_gt hi)
  · intro hash t t' k v det hens hlt
    simp only [OrderedNameDictionary_Add]
    rw [hens]
    refine ⟨_, rfl, ?_, ?_, by rw [data_withData]⟩
    · simp only [data_withData, setBucket, setSlot]
      exact List.get?_set_eq_of_lt _ hlt
    · intro i hi
      simp only [data_withData, setBucket, setSlot]
      exact List.get?_set_ne _ _ (Nat.ne_of_gt hi)
  · intro hash hashed s s' k hkey hstep hlt
    simp only [SmallOrderedHashSet_Add]
    rw [hkey]
    simp only [Bool.false_eq_true, if_false]
    rw [hstep]
    refine ⟨_, rfl, ?_, ?_, rfl⟩
    · simp only [smallSetData]
      exact List.get?_set_eq_of_lt _ hlt
    · intro i hi
      simp only [smallSetData]
      exact List.get?_set_ne _ _ (Nat.ne_of_gt hi)
  · intro hash hashed s s' k v hkey hstep hlt
    simp only [SmallOrderedHashMap_Add]
    rw [hkey]
    simp only [Bool.false_eq_true, if_false]
    rw [hstep]
    refine ⟨_, rfl, ?_, ?_, rfl⟩
    · simp only [smallSetData, smallRowAt, List.get?_set_eq_of_lt, List.length_set,
        hlt, Option.getD_some]
    · intro i hi
      simp only [smallSetData]
      rw [List.get?_set_ne _ _ (Nat.ne_of_gt hi), List.get?_set_ne _ _ (Nat.ne_of_gt hi)]
  · intro hash s s' k v det hstep hlt
    simp only [SmallOrderedNameDictionary_Add]
    rw [hstep]
    refine ⟨_, rfl, ?_, ?_, rfl⟩
    · simp only [smallSetData, smallRowAt, List.get?_set_eq_of_lt, List.length_set,
        hlt, Option.getD_some]
    · intro i hi
      simp only [smallSetData]
      rw [List.get?_set_ne _ _ (Nat.ne_of_gt hi), List.get?_set_ne _ _ (Nat.ne_of_gt hi),
        List.get?_set_ne _ _ (Nat.ne_of_gt hi)]

/-- An empty freshly-allocated large table of entry size `es`, used in the
C2 witness. -/
def wEmptyL (es : Nat) : TblData :=
  { numBuckets := 2, buckets := [none, none], numElements := 0, numDeleted := 0,
    slots := List.replicate 4 (defaultSlot es), removed := [] }

/-- An empty freshly-allocated small table of entry size `es`, used in the
C2 witness. -/
def wEmptyS (es : Nat) : SmallTbl := smallAllocate es 4

/-- Witness for C2: on concrete empty tables, each of the six add paths
writes the new entry at the used capacity (here slot 0) and changes no slot
below it. -/
theorem claim_C2_witness :
    (∃ r, OrderedHashSet_Add id (HashTbl.base (wEmptyL 1)) 5 = some r ∧
      r.data.slots.get? (usedCapacityN (wEmptyL 1)) =
        some ⟨[Obj.val 5], hashToEntry (wEmptyL 1) (id 5)⟩ ∧
      (∀ i < usedCapacityN (wEmptyL 1),
        r.data.slots.get? i = (wEmptyL 1).slots.get? i) ∧
      r.data.numElements = (wEmptyL 1).numElements + 1) ∧
    (∃ r, OrderedHashMap_Add id (HashTbl.base (wEmptyL 2)) 5 (Obj.val 9) = some r ∧
      r.data.slots.get? (usedCapacityN (wEmptyL 2)) =
        some ⟨[Obj.val 5, Obj.val 9], hashToEntry (wEmptyL 2) (id 5)⟩ ∧
      (∀ i < usedCapacityN (wEmptyL 2),
        r.data.slots.get? i = (wEmptyL 2).slots.get? i) ∧
      r.data.numElements = (wEmptyL 2).numElements + 1) ∧
    (∃ r, OrderedNameDictionary_Add id (HashTbl.base (wEmptyL 3)) 5 (Obj.val 9)
        (Obj.val 1) = some r ∧
      r.data.slots.get? (usedCapacityN (wEmptyL 3)) =
        some ⟨[Obj.val 5, Obj.val 9, Obj.val 1], hashToEntry (wEmptyL 3) (id 5)⟩ ∧
      (∀ i < usedCapacityN (wEmptyL 3),
        r.data.slots.get? i = (wEmptyL 3).slots.get? i) ∧
      r.data.numElements = (wEmptyL 3).numElements + 1) ∧
    (∃ r, SmallOrderedHashSet_Add id (fun _ => true) (wEmptyS 1) 5 = some r ∧
      r.dataTable.get? ((wEmptyS 1).numElements + (wEmptyS 1).numDeleted) =
        some ((smallRowAt (wEmptyS 1)
          ((wEmptyS 1).numElements + (wEmptyS 1).numDeleted)).set 0 (Obj.val 5)) ∧
      (∀ i < (wEmptyS 1).numElements + (wEmptyS 1).numDeleted,
        r.dataTable.get? i = (wEmptyS 1).dataTable.get? i) ∧
      r.numElements = (wEmptyS 1).numElements + 1) ∧
    (∃ r, SmallOrderedHashMap_Add id (fun _ => true) (wEmptyS 2) 5 (Obj.val 9) =
        some r ∧
      r.dataTable.get? ((wEmptyS 2).numElements + (wEmptyS 2).numDeleted) =
        some (((smallRowAt (wEmptyS 2)
          ((wEmptyS 2).numElements + (wEmptyS 2).numDeleted)).set 1 (Obj.val 9)).set 0
            (Obj.val 5)) ∧
      (∀ i < (wEmptyS 2).numElements + (wEmptyS 2).numDeleted,
        r.dataTable.get? i = (wEmptyS 2).dataTable.get? i) ∧
      r.numElements = (wEmptyS 2).numElements + 1) ∧
    (∃ r, SmallOrderedNameDictionary_Add id (wEmptyS 3) 5 (Obj.val 9) (Obj.val 1) =
        some r ∧
      r.dataTable.get? ((wEmptyS 3).numElements + (wEmptyS 3).numDeleted) =
        some ((((smallRowAt (wEmptyS 3)
          ((wEmptyS 3).numElements + (wEmptyS 3).numDeleted)).set 1 (Obj.val 9)).set 0
            (Obj.val 5)).set 2 (Obj.val 1)) ∧
      (∀ i < (wEmptyS 3).numElements + (wEmptyS 3).numDeleted,
        r.dataTable.get? i = (wEmptyS 3).dataTable.get? i) ∧
      r.numElements = (wEmptyS 3).numElements + 1) :=
  ⟨claim_C2.1 id (HashTbl.base (wEmptyL 1)) (HashTbl.base (wEmptyL 1)) 5
      (by decide) (by decide) (by decide),
   claim_C2.2.1 id (HashTbl.base (wEmptyL 2)) (HashTbl.base (wEmptyL 2)) 5
      (Obj.val 9) (by decide) (by decide) (by decide),
   claim_C2.2.2.1 id (HashTbl.base (wEmptyL 3)) (HashTbl.base (wEmptyL 3)) 5
      (Obj.val 9) (Obj.val 1) (by decide) (by decide),
   claim_C2.2.2.2.1 id (fun _ => true) (wEmptyS 1) (wEmptyS 1) 5
      (by decide) (by decide) (by decide),
   claim_C2.2.2.2.2.1 id (fun _ => true) (wEmptyS 2) (wEmptyS 2) 5 (Obj.val 9)
      (by decide) (by decide) (by decide),
   claim_C2.2.2.2.2.2 id (wEmptyS 3) (wEmptyS 3) 5 (Obj.val 9) (Obj.val 1)
      (by decide) (by decide)⟩

/-! ### Rehash: live-order preservation and the removed-indices log -/

/-- A slot is live when its key (first payload field) is not the hole. -/
def isLive (s : Slot) : Bool := slotKey s != Obj.hole

/-- The tombstoned slot indices of a slot list, counting from `n`. -/
def holeIdxsFrom : Nat → List Slot → List Nat
  | _, [] => []
  | n, s :: ss =>
    if slotKey s = Obj.hole then n :: holeIdxsFrom (n + 1) ss
    else holeIdxsFrom (n + 1) ss

/-- The live slots of the used region of a table, in ascending slot order. -/
def livePart (d : TblData) : List Slot :=
  (d.slots.take (usedCapacityN d)).filter isLive

/-- The sequence of live payload tuples of a table, in ascending slot
order: this is what the table's iteration yields. -/
def liveSeqD (d : TblData) : List (List Obj) := (livePart d).map Slot.fields

/-- The number of live slots in the used region. -/
def liveCountD (d : TblData) : Nat := (livePart d).length

/-- The tombstoned slot indices of the used region, in ascending order. -/
def holeIdxsD (d : TblData) : List Nat :=
  holeIdxsFrom 0 (d.slots.take (usedCapacityN d))

theorem holeIdxsFrom_ge (l : List Slot) :
    ∀ n x, x ∈ holeIdxsFrom n l → n ≤ x := by
  induction l with
  | nil => intro n x hx; simp [holeIdxsFrom] at hx
  | cons s ss ih =>
    intro n x hx
    simp only [holeIdxsFrom] at hx
    split at hx
    · rcases List.mem_cons.1 hx with h | h
      · omega
      · exact le_trans (Nat.le_succ n) (ih (n + 1) x h)
    · exact le_trans (Nat.le_succ n) (ih (n + 1) x hx)

theorem holeIdxsFrom_pairwise (l : List Slot) :
    ∀ n, List.Pairwise (· < ·) (holeIdxsFrom n l) := by
  induction l with
  | nil => intro n; simp [holeIdxsFrom]
  | cons s ss ih =>
    intro n
    simp only [holeIdxsFrom]
    split
    · exact List.Pairwise.cons (fun x hx => holeIdxsFrom_ge ss (n + 1) x hx) (ih (n + 1))
    · exact ih (n + 1)

/-- Everything `rehashLoop` guarantees: the new-entry counter advances by
the number of live slots migrated, the removed log collects exactly the
tombstoned indices in order, the header fields and lengths of the new table
are untouched, slots below `ne` and above the migrated window are untouched,
and the migrated window holds the live payloads in source order. -/
structure RehashLoopSpec (ps : List Slot) (oi : Nat) (nt : TblData) (ne : Nat)
    (rem : List Nat) (out : TblData × Nat × List Nat) : Prop where
  ne_eq : out.2.1 = ne + (ps.filter isLive).length
  rem_eq : out.2.2 = rem ++ holeIdxsFrom oi ps
  nb : out.1.numBuckets = nt.numBuckets
  nofE : out.1.numElements = nt.numElements
  nodE : out.1.numDeleted = nt.numDeleted
  remE : out.1.removed = nt.removed
  len : out.1.slots.length = nt.slots.length
  blen : out.1.buckets.length = nt.buckets.length
  lo : ∀ j < ne, out.1.slots.get? j = nt.slots.get? j
  mid : ∀ j < (ps.filter isLive).length,
    (out.1.slots.get? (ne + j)).map Slot.fields =
      ((ps.filter isLive).map Slot.fields).get? j
  hi : ∀ j, ne + (ps.filter isLive).length ≤ j →
    out.1.slots.get? j = nt.slots.get? j

theorem rehashLoop_spec (hash : Nat → Nat) (ps : List Slot) :
    ∀ (oi : Nat) (nt : TblData) (ne : Nat) (rem : List Nat),
      ne + (ps.filter isLive).length ≤ nt.slots.length →
      RehashLoopSpec ps oi nt ne rem (rehashLoop hash ps oi nt ne rem) := by
  induction ps with
  | nil =>
    intro oi nt ne rem _
    exact
      { ne_eq := by simp [rehashLoop]
        rem_eq := by simp [rehashLoop, holeIdxsFrom]
        nb := rfl, nofE := rfl, nodE := rfl, remE := rfl, len := rfl
        blen := rfl
        lo := fun _ _ => rfl
        mid := fun j hj => by simp at hj
        hi := fun _ _ => rfl }
  | cons s ss ih =>
    intro oi nt ne rem hlen
    by_cases hkey : slotKey s = Obj.hole
    · -- tombstone: record the index, recurse
      have hlive : isLive s = false := by simp [isLive, hkey]
      have hfilter : (s :: ss).filter isLive = ss.filter isLive :=
        List.filter_cons_of_neg (by simp [hlive])
      have hloop : rehashLoop hash (s :: ss) oi nt ne rem =
          rehashLoop hash ss (oi + 1) nt ne (rem ++ [oi]) := by
        rw [rehashLoop, if_pos hkey]
      have spec := ih (oi + 1) nt ne (rem ++ [oi]) (by rw [hfilter] at hlen; exact hlen)
      rw [hloop]
      exact
        { ne_eq := by rw [spec.ne_eq, hfilter]
          rem_eq := by
            rw [spec.rem_eq, holeIdxsFrom, if_pos hkey, List.append_assoc]
            rfl
          nb := spec.nb, nofE := spec.nofE, nodE := spec.nodE, remE := spec.remE
          len := spec.len
          blen := spec.blen
          lo := spec.lo
          mid := fun j hj => by
            rw [hfilter]
            exact spec.mid j (by rw [hfilter] at hj; exact hj)
          hi := fun j hj => spec.hi j (by rw [hfilter] at hj; exact hj) }
    · -- live: write the payload at `ne`, recurse
      have hlive : isLive s = true := by simp [isLive, hkey]
      have hfilter : (s :: ss).filter isLive = s :: ss.filter isLive :=
        List.filter_cons_of_pos hlive
      have hcnt : ((s :: ss).filter isLive).length = (ss.filter isLive).length + 1 := by
        rw [hfilter]; rfl
      have hne : ne < nt.slots.length := by rw [hcnt] at hlen; omega
      set ch := (nt.buckets.get? (objHash hash (slotKey s) &&&
        (nt.numBuckets - 1))).getD none with hch
      set nt2 := setSlot (setBucket nt (objHash hash (slotKey s) &&&
        (nt.numBuckets - 1)) (some ne)) ne ⟨s.fields, ch⟩ with hnt2
      have hslots2 : nt2.slots = nt.slots.set ne ⟨s.fields, ch⟩ := by
        simp [hnt2, setSlot, setBucket]
      have hlen2 : nt2.slots.length = nt.slots.length := by
        rw [hslots2, List.length_set]
      have hloop : rehashLoop hash (s :: ss) oi nt ne rem =
          rehashLoop hash ss (oi + 1) nt2 (ne + 1) rem := by
        rw [rehashLoop, if_neg hkey]
      have spec := ih (oi + 1) nt2 (ne + 1) rem
        (by rw [hlen2]; rw [hcnt] at hlen; omega)
      rw [hloop]
      refine
        { ne_eq := by rw [spec.ne_eq, hcnt]; omega
          rem_eq := by rw [spec.rem_eq, holeIdxsFrom, if_neg hkey]
          nb := by rw [spec.nb]; simp [hnt2, setSlot, setBucket]
          nofE := by rw [spec.nofE]; simp [hnt2, setSlot, setBucket]
          nodE := by rw [spec.nodE]; simp [hnt2, setSlot, setBucket]
          remE := by rw [spec.remE]; simp [hnt2, setSlot, setBucket]
          len := by rw [spec.len, hlen2]
          blen := by
            rw [spec.blen]
            simp [hnt2, setSlot, setBucket, List.length_set]
          lo := ?_, mid := ?_, hi := ?_ }
      · intro j hj
        rw [spec.lo j (Nat.lt_succ_of_lt hj), hslots2,
          List.get?_set_ne _ _ (Nat.ne_of_gt hj)]
      · intro j hj
        rcases j with _ | j'
        · have hx := spec.lo ne (Nat.lt_succ_self ne)
          rw [hslots2, List.get?_set_eq_of_lt _ hne] at hx
          rw [List.get?_eq_getElem?] at hx
          simp [hfilter, hx]
        · have hj' : j' < (ss.filter isLive).length := by
            rw [hcnt] at hj; omega
          have hm := spec.mid j' hj'
          have he : (ne + 1) + j' = ne + (j' + 1) := by omega
          rw [he] at hm
          simpa [hfilter] using hm
      · intro j hj
        rw [hcnt] at hj
        rw [spec.hi j (by omega), hslots2, List.get?_set_ne _ _ (by omega)]

/-- The table produced by a successful large-form allocation. -/
def allocInit (es cap : Nat) : TblData :=
  { numBuckets := roundUpPow2 (max kInitialCapacity cap) / kLoadFactor
    buckets := List.replicate (roundUpPow2 (max kInitialCapacity cap) / kLoadFactor) none
    numElements := 0
    numDeleted := 0
    slots := List.replicate (roundUpPow2 (max kInitialCapacity cap)) (defaultSlot es)
    removed := [] }

theorem allocate_eq (es cap : Nat)
    (h : roundUpPow2 (max kInitialCapacity cap) ≤ maxCapacity) :
    allocate es cap = some (HashTbl.base (allocInit es cap)) := by
  simp only [allocate]
  rw [if_neg (not_lt.2 h)]
  rfl

theorem allocate_isSome_iff (es cap : Nat) :
    (allocate es cap).isSome ↔
      roundUpPow2 (max kInitialCapacity cap) ≤ maxCapacity := by
  simp only [allocate]
  by_cases h : maxCapacity < roundUpPow2 (max kInitialCapacity cap)
  · rw [if_pos h]; simp; omega
  · rw [if_neg h]; simp; omega

theorem mem_map_filter_isLive (l : List Slot) :
    ∀ f ∈ (l.filter isLive).map Slot.fields, f.headD Obj.hole ≠ Obj.hole := by
  intro f hf
  obtain ⟨s, hs, rfl⟩ := List.mem_map.1 hf
  have hlive : isLive s = true := List.of_mem_filter hs
  simpa [isLive, slotKey] using hlive

/-- A window of slots whose payload sequence is `L`, with every payload
live, filters and maps back to `L`. -/
theorem liveSeq_of_window (l : List Slot) (L : List (List Obj)) (cnt : Nat)
    (hLcnt : L.length = cnt) (hlen : cnt ≤ l.length)
    (hmid : ∀ j < cnt, (l.get? j).map Slot.fields = L.get? j)
    (hliveL : ∀ f ∈ L, f.headD Obj.hole ≠ Obj.hole) :
    ((l.take cnt).filter isLive).map Slot.fields = L := by
  have hmap : (l.take cnt).map Slot.fields = L := by
    apply List.ext
    intro n
    rw [List.get?_map]
    by_cases hn : n < cnt
    · rw [List.get?_take hn]
      exact hmid n hn
    · have h1 : (l.take cnt).get? n = none := by
        apply List.get?_eq_none.2
        rw [List.length_take]
        omega
      have h2 : L.get? n = none := by
        apply List.get?_eq_none.2
        omega
      rw [h1, h2]
      rfl
  have hfilter : (l.take cnt).filter isLive = l.take cnt := by
    apply List.filter_eq_self.2
    intro s hs
    obtain ⟨n, hn⟩ := List.mem_iff_get?.1 hs
    have hncnt : n < cnt := by
      by_contra hc
      have hnone : (l.take cnt).get? n = none := by
        apply List.get?_eq_none.2
        rw [List.length_take]
        omega
      rw [hnone] at hn
      exact Option.noConfusion hn
    rw [List.get?_take hncnt] at hn
    have hfield := hmid n hncnt
    rw [hn] at hfield
    have hmem : s.fields ∈ L := List.get?_mem hfield.symm
    have := hliveL s.fields hmem
    simpa [isLive, slotKey] using this
  rw [hfilter, hmap]

/-- C1: a successful large-form `Rehash` preserves the sequence of live
payload tuples in slot order, records the tombstoned source slot indices
into the source's removed-indices log in ascending order, copies the
element count, and sets the source's `next_table` to the new table exactly
when the source has a nonzero bucket count. -/
theorem claim_C1 (es : Nat) (hash : Nat → Nat) (d : TblData) (newCap : Nat)
    (hused : usedCapacityN d ≤ d.slots.length)
    (hnof : d.numElements = liveCountD d)
    (hcap : liveCountD d ≤ roundUpPow2 (max kInitialCapacity newCap))
    (halloc : (allocate es newCap).isSome) :
    ∃ nt rd,
      rehash es hash (HashTbl.base d) newCap =
        some (HashTbl.base nt,
          if 0 < d.numBuckets then HashTbl.chained rd (HashTbl.base nt)
          else HashTbl.base rd) ∧
      liveSeqD nt = liveSeqD d ∧
      nt.numElements = d.numElements ∧ nt.numDeleted = 0 ∧
      rd = { d with removed := overwriteLog d.removed (holeIdxsD d) } ∧
      rd.removed.take (holeIdxsD d).length = holeIdxsD d ∧
      List.Pairwise (· < ·) (holeIdxsD d) := by
  have hrc : roundUpPow2 (max kInitialCapacity newCap) ≤ maxCapacity :=
    (allocate_isSome_iff es newCap).1 halloc
  have hlenInit : (allocInit es newCap).slots.length =
      roundUpPow2 (max kInitialCapacity newCap) := by
    simp [allocInit]
  have hspec := rehashLoop_spec hash (d.slots.take (usedCapacityN d)) 0
    (allocInit es newCap) 0 []
    (by
      rw [hlenInit, Nat.zero_add]
      exact hcap)
  rcases hLoopEq : rehashLoop hash (d.slots.take (usedCapacityN d)) 0
      (allocInit es newCap) 0 [] with ⟨ntd, ne', rlog⟩
  rw [hLoopEq] at hspec
  have hrem : rlog = holeIdxsD d := by
    have := hspec.rem_eq
    simpa [holeIdxsD] using this
  have hnod0 : ntd.numDeleted = 0 := by
    have := hspec.nodE
    simpa [allocInit] using this
  have hcnt : liveCountD d =
      ((d.slots.take (usedCapacityN d)).filter isLive).length := rfl
  refine ⟨{ ntd with numElements := d.numElements },
    { d with removed := overwriteLog d.removed (holeIdxsD d) }, ?_, ?_, rfl,
    by simpa using hnod0, rfl, ?_, ?_⟩
  · rw [rehash, allocate_eq es newCap hrc]
    simp only [HashTbl.data_base, hLoopEq, HashTbl.withData_base]
    rw [hrem]
  · -- live-order preservation
    have huse : usedCapacityN { ntd with numElements := d.numElements } =
        liveCountD d := by
      simp only [usedCapacityN, hnod0]
      rw [hnof]
      simp
    have hmid' : ∀ j < liveCountD d,
        (ntd.slots.get? j).map Slot.fields = (liveSeqD d).get? j := by
      intro j hj
      have := hspec.mid j (by rw [← hcnt]; exact hj)
      simpa [liveSeqD, livePart] using this
    have hlen' : liveCountD d ≤ ntd.slots.length := by
      have := hspec.len
      simp only [hlenInit] at this
      omega
    have := liveSeq_of_window ntd.slots (liveSeqD d) (liveCountD d)
      (by simp [liveSeqD, livePart, liveCountD]) hlen' hmid'
      (mem_map_filter_isLive _)
    simp only [liveSeqD, livePart, huse]
    exact this
  · simp [overwriteLog, List.take_left]
  · exact holeIdxsFrom_pairwise _ 0

/-- A capacity-4 table with two live entries and one tombstone, used in the
C1 witness. -/
def wC1src : TblData :=
  { numBuckets := 2, buckets := [some 2, none], numElements := 2,
    numDeleted := 1,
    slots := [⟨[Obj.val 4], none⟩, ⟨[Obj.hole], some 0⟩, ⟨[Obj.val 5], some 1⟩,
              defaultSlot 1],
    removed := [] }

/-- Witness for C1: rehashing the concrete table at capacity 4 keeps the
live order `[4], [5]`, records removed index 1, copies the element count and
chains the source to the new table. -/
theorem claim_C1_witness :
    ∃ nt rd,
      rehash 1 id (HashTbl.base wC1src) 4 =
        some (HashTbl.base nt,
          if 0 < wC1src.numBuckets then HashTbl.chained rd (HashTbl.base nt)
          else HashTbl.base rd) ∧
      liveSeqD nt = liveSeqD wC1src ∧
      nt.numElements = wC1src.numElements ∧ nt.numDeleted = 0 ∧
      rd = { wC1src with
              removed := overwriteLog wC1src.removed (holeIdxsD wC1src) } ∧
      rd.removed.take (holeIdxsD wC1src).length = holeIdxsD wC1src ∧
      List.Pairwise (· < ·) (holeIdxsD wC1src) :=
  claim_C1 1 id wC1src 4 (by decide) (by decide) (by decide) (by decide)

/-! ### Iterator transition (C3) -/

/-- The end of a `next_table` chain: the non-obsolete table the chain leads
to. -/
def chaseData : HashTbl → TblData
  | HashTbl.base d => d
  | HashTbl.chained _ nx => chaseData nx

/-- The index adjustment across one obsolete predecessor, exactly as the
specification words it (without the `index > 0` short-circuit of the code):
a cleared predecessor resets the index to 0; otherwise the index is
decremented once for each recorded removed index strictly below the index
value on entering, scanning in ascending order and stopping at the first
recorded index that meets or exceeds it. -/
def specAdjust (d : TblData) (index : Int) : Int :=
  if d.numDeleted = kClearedTableSentinel then 0
  else removedScan index (d.removed.take d.numDeleted.toNat) index

/-- The index adjustment folded along the whole obsolete chain, as the
specification words it. -/
def specIndexFold : HashTbl → Int → Int
  | HashTbl.base _, i => i
  | HashTbl.chained d nx, i => specIndexFold nx (specAdjust d i)

/-- Well-formedness of an obsolete chain: every obsolete predecessor's
recorded removed indices (the first `nod` log entries) are strictly
ascending, as `Rehash` records them. -/
def ChainWf : HashTbl → Prop
  | HashTbl.base _ => True
  | HashTbl.chained d nx =>
    List.Pairwise (· < ·) (d.removed.take d.numDeleted.toNat) ∧ ChainWf nx

theorem removedScan_eq (oldIdx : Int) :
    ∀ (rs : List Nat) (index : Int),
      removedScan oldIdx rs index =
        index - ((rs.takeWhile fun r : Nat => decide ((r : Int) < oldIdx)).length : Int) := by
  intro rs
  induction rs with
  | nil => intro index; simp [removedScan]
  | cons r rs ih =>
    intro index
    rw [removedScan]
    by_cases h : oldIdx ≤ (r : Int)
    · rw [if_pos h, List.takeWhile_cons]
      have hd : (decide ((r : Int) < oldIdx)) = false := by simp; omega
      rw [hd]
      simp
    · rw [if_neg h, ih (index - 1), List.takeWhile_cons]
      have hd : (decide ((r : Int) < oldIdx)) = true := by simp; omega
      rw [hd]
      simp
      omega

theorem pairwise_lt_length_le (n : Nat) (l : List Nat)
    (hs : List.Pairwise (· < ·) l) (hb : ∀ x ∈ l, x < n) : l.length ≤ n := by
  have hnodup : l.Nodup := hs.imp fun h => Nat.ne_of_lt h
  have hsub : l ⊆ List.range n := fun x hx => List.mem_range.2 (hb x hx)
  have := (List.subperm_of_subset hnodup hsub).length_le
  simpa using this

theorem removedScan_zero (rs : List Nat) : removedScan 0 rs 0 = 0 := by
  cases rs with
  | nil => rfl
  | cons r rs =>
    rw [removedScan, if_pos]
    exact Int.natCast_nonneg r

theorem specAdjust_nonneg (d : TblData) (index : Int)
    (h0 : 0 ≤ index)
    (hs : List.Pairwise (· < ·) (d.removed.take d.numDeleted.toNat)) :
    0 ≤ specAdjust d index := by
  rw [specAdjust]
  by_cases hc : d.numDeleted = kClearedTableSentinel
  · rw [if_pos hc]
  · rw [if_neg hc, removedScan_eq]
    set rs := d.removed.take d.numDeleted.toNat with hrs
    set tw := rs.takeWhile fun r : Nat => decide ((r : Int) < index) with htw
    have hsub : tw.Sublist rs := List.takeWhile_sublist _
    have hstw : List.Pairwise (· < ·) tw := hs.sublist hsub
    have hbtw : ∀ x ∈ tw, x < index.toNat := by
      intro x hx
      have := List.mem_takeWhile_imp hx
      simp at this
      omega
    have := pairwise_lt_length_le index.toNat tw hstw hbtw
    omega

/-- C3: `Transition` follows the `next_table` chain to the non-obsolete
end, and its resulting index is exactly the specification's per-predecessor
adjustment folded along the chain: reset to 0 for a cleared predecessor,
otherwise one decrement per recorded removed index strictly below the
entering index, scanning in ascending order with early stop. -/
theorem claim_C3 (t : HashTbl) (idx : Int) (h0 : 0 ≤ idx) (hwf : ChainWf t) :
    transition t idx = (HashTbl.base (chaseData t), specIndexFold t idx) := by
  induction t generalizing idx with
  | base d => rfl
  | chained d nx ih =>
    obtain ⟨hsort, hwf'⟩ := hwf
    have hadj : (if 0 < idx then
        (if d.numDeleted = kClearedTableSentinel then 0
         else removedScan idx (d.removed.take d.numDeleted.toNat) idx)
        else idx) = specAdjust d idx := by
      by_cases hpos : 0 < idx
      · rw [if_pos hpos, specAdjust]
      · have hz : idx = 0 := le_antisymm (not_lt.1 hpos) h0
        rw [if_neg hpos, specAdjust, hz]
        by_cases hc : d.numDeleted = kClearedTableSentinel
        · rw [if_pos hc]
        · rw [if_neg hc, removedScan_zero]
    rw [transition, hadj]
    exact ih (specAdjust d idx) (specAdjust_nonneg d idx h0 hsort) hwf'

/-- A two-step obsolete chain used in the C3 witness: the first predecessor
records removed indices 1 and 3, the second is cleared. -/
def wC3a : TblData :=
  { numBuckets := 2, buckets := [], numElements := 2, numDeleted := 2,
    slots := [], removed := [1, 3] }

/-- The cleared second predecessor of the C3 witness chain. -/
def wC3b : TblData :=
  { numBuckets := 2, buckets := [], numElements := 0,
    numDeleted := kClearedTableSentinel, slots := [], removed := [] }

/-- The live end of the C3 witness chain. -/
def wC3c : TblData :=
  { numBuckets := 2, buckets := [none, none], numElements := 0, numDeleted := 0,
    slots := [defaultSlot 1, defaultSlot 1, defaultSlot 1, defaultSlot 1],
    removed := [] }

/-- Witness for C3 on a concrete two-predecessor chain starting at index 5:
the first predecessor decrements the index once per removed index below it,
the cleared one resets it to 0. -/
theorem claim_C3_witness :
    transition (HashTbl.chained wC3a (HashTbl.chained wC3b (HashTbl.base wC3c))) 5 =
      (HashTbl.base
        (chaseData (HashTbl.chained wC3a (HashTbl.chained wC3b (HashTbl.base wC3c)))),
       specIndexFold
         (HashTbl.chained wC3a (HashTbl.chained wC3b (HashTbl.base wC3c))) 5) :=
  claim_C3 (HashTbl.chained wC3a (HashTbl.chained wC3b (HashTbl.base wC3c))) 5
    (by decide) (by exact ⟨by decide, by decide, trivial⟩)

/-! ### Promotion (C4): canonical large Set tables and appending adds -/

/-- A large Set table in canonical shape: `ks` live single-field entries in
insertion order in the slot prefix, no tombstones, hole slots above. -/
def Canon (ks : List Nat) (d : TblData) : Prop :=
  d.numElements = ks.length ∧
  d.numDeleted = 0 ∧
  0 < d.numBuckets ∧
  d.slots.length = tblCapacity d ∧
  ks.length ≤ d.slots.length ∧
  (∀ j < ks.length, (d.slots.get? j).map Slot.fields =
    (ks.map fun k => [Obj.val k]).get? j) ∧
  (∀ j, ks.length ≤ j → j < d.slots.length → d.slots.get? j = some (defaultSlot 1))

theorem get?_replicate_of_lt {α : Type} (a : α) :
    ∀ n j, j < n → (List.replicate n a).get? j = some a := by
  intro n
  induction n with
  | zero => intro j hj; omega
  | succ m ih =>
    intro j hj
    cases j with
    | zero => rfl
    | succ j' => exact ih j' (by omega)

theorem Canon_used {ks : List Nat} {d : TblData} (hC : Canon ks d) :
    usedCapacityN d = ks.length := by
  simp [usedCapacityN, hC.1, hC.2.1]

theorem Canon_keyAt {ks : List Nat} {d : TblData} (hC : Canon ks d) {k : Nat}
    (hk : k ∉ ks) : ∀ e, keyAt d e ≠ Obj.val k := by
  intro e
  obtain ⟨hnof, hnod, hnb, hcap, hle, hwin, hsuf⟩ := hC
  by_cases he : e < ks.length
  · have hw := hwin e he
    rw [List.get?_map] at hw
    rcases hks : ks.get? e with _ | kv
    · exact absurd (List.get?_eq_none.1 hks) (by omega)
    · rw [hks] at hw
      simp only [Option.map_some'] at hw
      rcases hget : d.slots.get? e with _ | s
      · rw [hget] at hw; simp at hw
      · rw [hget] at hw
        simp only [Option.map_some', Option.some.injEq] at hw
        rw [keyAt, slotAt, hget]
        simp only [Option.getD_some]
        rw [slotKey, hw]
        intro hcontra
        simp at hcontra
        exact hk (hcontra ▸ List.get?_mem hks)
  · by_cases he2 : e < d.slots.length
    · have := hsuf e (by omega) he2
      rw [keyAt, slotAt, this]
      simp [slotKey, defaultSlot]
    · have : d.slots.get? e = none := List.get?_eq_none.2 (by omega)
      rw [keyAt, slotAt, this]
      simp [slotKey]

theorem chainFind_none_of (d : TblData) (k : Obj)
    (h : ∀ e, keyAt d e ≠ k) : ∀ fuel o, chainFind d k fuel o = none := by
  intro fuel
  induction fuel with
  | zero => intro o; cases o <;> rfl
  | succ m ih =>
    intro o
    cases o with
    | none => rfl
    | some e =>
      rw [chainFind, if_neg (h e)]
      exact ih (chainAt d e)

theorem roundUpPow2_even {n : Nat} (h4 : 4 ≤ roundUpPow2 n) :
    roundUpPow2 n / 2 * 2 = roundUpPow2 n := by
  obtain ⟨j, hj⟩ := roundUpPow2_isPow n
  rcases j with _ | j'
  · rw [hj] at h4; simp at h4
  · rw [hj, Nat.pow_succ]
    omega

/-- Rehashing a canonical table at a capacity that fits the entries yields
a canonical table at the rounded capacity (modulo the obsolete source). -/
theorem rehash_Canon (hash : Nat → Nat) (ks : List Nat) (d : TblData)
    (newCap : Nat) (hC : Canon ks d)
    (hfit : ks.length ≤ newCap)
    (hok : roundUpPow2 (max kInitialCapacity newCap) ≤ maxCapacity) :
    ∃ d' srcT, rehash 1 hash (HashTbl.base d) newCap = some (HashTbl.base d', srcT) ∧
      Canon ks d' ∧
      tblCapacity d' = roundUpPow2 (max kInitialCapacity newCap) := by
  obtain ⟨hnof, hnod, hnb, hcap, hle, hwin, hsuf⟩ := hC
  have hused : usedCapacityN d = ks.length := by simp [usedCapacityN, hnof, hnod]
  set rc := roundUpPow2 (max kInitialCapacity newCap) with hrc
  have hrc4 : 4 ≤ rc := le_trans (le_max_left _ _) (le_roundUpPow2 _)
  have hksrc : ks.length ≤ rc :=
    le_trans hfit (le_trans (le_max_right _ _) (le_roundUpPow2 _))
  -- the slot prefix is entirely live
  have hpairs_live : ∀ x ∈ d.slots.take (usedCapacityN d), isLive x = true := by
    intro x hx
    obtain ⟨n, hn⟩ := List.mem_iff_get?.1 hx
    have hnlt : n < ks.length := by
      by_contra hcon
      have hnone : (d.slots.take (usedCapacityN d)).get? n = none := by
        apply List.get?_eq_none.2
        rw [List.length_take]
        omega
      rw [hnone] at hn
      exact Option.noConfusion hn
    rw [hused] at hn
    rw [List.get?_take hnlt] at hn
    have hw := hwin n hnlt
    rw [hn, List.get?_map] at hw
    rcases hks : ks.get? n with _ | kv
    · rw [hks] at hw; simp at hw
    · rw [hks] at hw
      simp only [Option.map_some', Option.some.injEq] at hw
      simp [isLive, slotKey, hw]
  have hfeq : (d.slots.take (usedCapacityN d)).filter isLive =
      d.slots.take (usedCapacityN d) := List.filter_eq_self.2 hpairs_live
  have hcnt : ((d.slots.take (usedCapacityN d)).filter isLive).length = ks.length := by
    rw [hfeq, List.length_take, hused]
    omega
  have hlenInit : (allocInit 1 newCap).slots.length = rc := by simp [allocInit, hrc]
  have hspec := rehashLoop_spec hash (d.slots.take (usedCapacityN d)) 0
    (allocInit 1 newCap) 0 []
    (by rw [hlenInit, Nat.zero_add, hcnt]; exact hksrc)
  rcases hLoopEq : rehashLoop hash (d.slots.take (usedCapacityN d)) 0
      (allocInit 1 newCap) 0 [] with ⟨ntd, ne', rlog⟩
  rw [hLoopEq] at hspec
  have hntNB : ntd.numBuckets = rc / 2 := by
    have := hspec.nb
    simpa [allocInit, kLoadFactor, hrc] using this
  have hntLen : ntd.slots.length = rc := by
    have := hspec.len
    simpa [hlenInit] using this
  have hntNod : ntd.numDeleted = 0 := by
    have := hspec.nodE
    simpa [allocInit] using this
  refine ⟨{ ntd with numElements := d.numElements },
    HashTbl.chained { d with removed := overwriteLog d.removed rlog }
      (HashTbl.base { ntd with numElements := d.numElements }), ?_, ?_, ?_⟩
  · rw [rehash, allocate_eq 1 newCap (hrc ▸ hok)]
    simp only [HashTbl.data_base, hLoopEq]
    rw [if_pos hnb]
  · refine ⟨by simpa using hnof, by simpa using hntNod, ?_, ?_, ?_, ?_, ?_⟩
    · simp only [hntNB]
      omega
    · simp only [tblCapacity, hntNB, hntLen, kLoadFactor]
      exact (roundUpPow2_even (n := max kInitialCapacity newCap) hrc4).symm
    · simp only [hntLen]
      exact hksrc
    · intro j hj
      have hm := hspec.mid j (by rw [hcnt]; exact hj)
      simp only [Nat.zero_add, hfeq] at hm
      have hjtake : j < usedCapacityN d := by rw [hused]; exact hj
      rw [List.get?_map, List.get?_take hjtake] at hm
      simpa using hm.trans (hwin j hj)
    · intro j hj1 hj2
      have hh := hspec.hi j (by rw [hcnt]; omega)
      simp only at hh
      rw [hh]
      simp only [allocInit]
      exact get?_replicate_of_lt _ _ _ (by simpa [hntLen] using hj2)
  · simp only [tblCapacity, hntNB, kLoadFactor]
    exact roundUpPow2_even (n := max kInitialCapacity newCap) hrc4

/-- The capacity step before an insert keeps the table canonical and leaves
room for the next entry. -/
theorem ensure_Canon (hash : Nat → Nat) (ks : List Nat) (d : TblData)
    (hC : Canon ks d) (hlen : ks.length ≤ 254) :
    ∃ d', ensureCapacityForAdding 1 hash (HashTbl.base d) = some (HashTbl.base d') ∧
      Canon ks d' ∧ ks.length < tblCapacity d' := by
  have hcap2 : 2 ≤ tblCapacity d := by
    have := hC.2.2.1
    simp only [tblCapacity, kLoadFactor]
    omega
  by_cases hroom : (d.numElements : Int) + d.numDeleted < (tblCapacity d : Int)
  · refine ⟨d, ?_, hC, ?_⟩
    · simp only [ensureCapacityForAdding, HashTbl.data_base]
      rw [if_pos hroom]
    · rw [hC.1, hC.2.1] at hroom
      omega
  · have hfull : tblCapacity d ≤ ks.length := by
      rw [hC.1, hC.2.1] at hroom
      omega
    have hkscap : ks.length = tblCapacity d := by
      have h1 := hC.2.2.2.2.1
      have h2 := hC.2.2.2.1
      omega
    have hok : roundUpPow2 (max kInitialCapacity (tblCapacity d * 2)) ≤ maxCapacity := by
      have hle : max kInitialCapacity (tblCapacity d * 2) ≤ 2 ^ 10 := by
        have : tblCapacity d ≤ 254 := by omega
        simp only [kInitialCapacity, Nat.max_le]
        omega
      calc roundUpPow2 (max kInitialCapacity (tblCapacity d * 2)) ≤ 2 ^ 10 :=
            roundUpPow2_le hle
        _ ≤ maxCapacity := by decide
    obtain ⟨d', srcT, heq, hC', hcap'⟩ :=
      rehash_Canon hash ks d (tblCapacity d * 2) hC (by omega) hok
    refine ⟨d', ?_, hC', ?_⟩
    · simp only [ensureCapacityForAdding, HashTbl.data_base]
      rw [if_neg hroom, if_neg (by omega), if_neg ?nod]
      case nod =>
        rw [hC.2.1]
        have : 1 ≤ tblCapacity d / 2 := by omega
        intro hcon
        omega
      rw [heq]
      rfl
    · rw [hcap']
      have : tblCapacity d * 2 ≤ roundUpPow2 (max kInitialCapacity (tblCapacity d * 2)) :=
        le_trans (le_max_right _ _) (le_roundUpPow2 _)
      omega

/-- Adding a fresh key to a canonical table succeeds and appends the key:
insertion order is extended at the end. -/
theorem add_Canon (hash : Nat → Nat) (ks : List Nat) (k : Nat) (d : TblData)
    (hC : Canon ks d) (hk : k ∉ ks) (hlen : ks.length ≤ 254) :
    ∃ d', OrderedHashSet_Add hash (HashTbl.base d) k = some (HashTbl.base d') ∧
      Canon (ks ++ [k]) d' := by
  have hdup : ¬ (0 < (HashTbl.base d).data.numElements ∧
      chainFindKey (HashTbl.base d).data (hash k) (Obj.val k) ≠ none) := by
    rintro ⟨-, hfind⟩
    exact hfind (chainFind_none_of d (Obj.val k) (Canon_keyAt hC hk) _ _)
  obtain ⟨d', hens, hC', hroom⟩ := ensure_Canon hash ks d hC hlen
  have hused' : usedCapacityN d' = ks.length := Canon_used hC'
  have hlt : usedCapacityN d' < d'.slots.length := by
    rw [hused', hC'.2.2.2.1]
    exact hroom
  obtain ⟨hnof, hnod, hnb, hcap, hle, hwin, hsuf⟩ := hC'
  refine ⟨{ setBucket (setSlot d' (usedCapacityN d')
      ⟨[Obj.val k], hashToEntry d' (hash k)⟩)
      (hashToBucket d' (hash k)) (some (usedCapacityN d')) with
      numElements := d'.numElements + 1 }, ?_, ?_⟩
  · simp only [OrderedHashSet_Add]
    rw [if_neg hdup, hens]
    rfl
  · constructor
    · simp [hnof, List.length_append]
    refine ⟨by simpa using hnod, by simpa using hnb, ?_, ?_, ?_, ?_⟩
    · simp only [setBucket, setSlot, tblCapacity, List.length_set]
      simpa [tblCapacity] using hcap
    · simp only [setBucket, setSlot, List.length_set, List.length_append]
      rw [hcap]
      simpa using hroom
    · intro j hj
      simp only [setBucket, setSlot]
      rw [List.length_append, List.length_singleton] at hj
      by_cases hjk : j < ks.length
      · rw [List.get?_set_ne _ _ (by rw [hused']; omega)]
        rw [List.map_append]
        rw [List.get?_append (by simpa using hjk)]
        exact hwin j hjk
      · have hjeq : j = ks.length := by omega
        subst hjeq
        rw [← hused', List.get?_set_eq_of_lt _ hlt]
        rw [List.map_append, hused']
        have hlm : (ks.map fun k => [Obj.val k]).length = ks.length := by simp
        rw [show (List.map (fun k => [Obj.val k]) [k]) = [[Obj.val k]] from rfl,
          ← hlm, List.get?_concat_length]
        rfl
    · intro j hj1 hj2
      simp only [setBucket, setSlot] at hj2 ⊢
      rw [List.length_set] at hj2
      rw [List.length_append, List.length_singleton] at hj1
      rw [List.get?_set_ne _ _ (by rw [hused']; omega)]
      exact hsuf j (by omega) hj2

/-- The iteration order of a canonical table is exactly its key list. -/
theorem Canon_liveSeq {ks : List Nat} {d : TblData} (hC : Canon ks d) :
    liveSeqD d = ks.map fun k => [Obj.val k] := by
  obtain ⟨hnof, hnod, hnb, hcap, hle, hwin, hsuf⟩ := hC
  have hused : usedCapacityN d = ks.length := by simp [usedCapacityN, hnof, hnod]
  have := liveSeq_of_window d.slots (ks.map fun k => [Obj.val k]) ks.length
    (by simp) hle hwin
    (by
      intro f hf
      obtain ⟨k, _, rfl⟩ := List.mem_map.1 hf
      simp)
  simpa [liveSeqD, livePart, hused] using this

/-- The keys of the live rows of a small-form data region, in slot order. -/
def rowKeys : List (List Obj) → List Nat
  | [] => []
  | row :: rows =>
    match rowKey row with
    | Obj.hole => rowKeys rows
    | Obj.val k => k :: rowKeys rows

theorem rowKeys_length_le : ∀ rows : List (List Obj),
    (rowKeys rows).length ≤ rows.length := by
  intro rows
  induction rows with
  | nil => simp [rowKeys]
  | cons row rows ih =>
    rw [rowKeys]
    rcases rowKey row with _ | k
    · simpa using Nat.le_succ_of_le ih
    · simpa using ih

/-- Re-inserting the live rows of a small table into a canonical large
table, in slot order, succeeds and appends exactly the live keys. -/
theorem adjustFold_spec (hash : Nat → Nat) :
    ∀ (rows : List (List Obj)) (ks : List Nat) (d : TblData),
      Canon ks d →
      (ks ++ rowKeys rows).Nodup →
      (ks ++ rowKeys rows).length ≤ 255 →
      ∃ d', rows.foldl
          (fun acc row =>
            acc.bind fun t =>
              match rowKey row with
              | Obj.hole => some t
              | Obj.val k => OrderedHashSet_Add hash t k)
          (some (HashTbl.base d)) = some (HashTbl.base d') ∧
        Canon (ks ++ rowKeys rows) d' := by
  intro rows
  induction rows with
  | nil =>
    intro ks d hC hnd hlen
    exact ⟨d, rfl, by simpa [rowKeys] using hC⟩
  | cons row rows ih =>
    intro ks d hC hnd hlen
    rw [List.foldl_cons]
    rcases hrk : rowKey row with _ | k
    · have hkeys : rowKeys (row :: rows) = rowKeys rows := by
        rw [rowKeys, hrk]
      rw [hkeys] at hnd hlen ⊢
      obtain ⟨d', hfold, hC'⟩ := ih ks d hC hnd hlen
      exact ⟨d', hfold, hC'⟩
    · have hkeys : rowKeys (row :: rows) = k :: rowKeys rows := by
        rw [rowKeys, hrk]
      rw [hkeys] at hnd hlen ⊢
      have hk : k ∉ ks := by
        intro hin
        have hdisj := (List.nodup_append.1 hnd).2.2
        exact hdisj hin (List.mem_cons_self k _)
      have hks254 : ks.length ≤ 254 := by
        rw [List.length_append, List.length_cons] at hlen
        omega
      obtain ⟨d2, hadd, hC2⟩ := add_Canon hash ks k d hC hk hks254
      have hstep : ((some (HashTbl.base d)).bind fun t =>
          match Obj.val k with
          | Obj.hole => some t
          | Obj.val k => OrderedHashSet_Add hash t k) = some (HashTbl.base d2) := hadd
      rw [hstep]
      have hlist : (ks ++ [k]) ++ rowKeys rows = ks ++ k :: rowKeys rows := by
        rw [List.append_assoc, List.singleton_append]
      have := ih (ks ++ [k]) d2 hC2 (by rw [hlist]; exact hnd)
        (by rw [hlist]; exact hlen)
      obtain ⟨d', hfold, hC'⟩ := this
      exact ⟨d', hfold, by rwa [hlist] at hC'⟩

/-- The canonical-empty shape of the freshly promoted large table. -/
theorem Canon_allocInit : Canon [] (allocInit 1 OrderedHashTableMinSize) := by
  refine ⟨rfl, rfl, by decide, ?_, by simp [allocInit], ?_, ?_⟩
  · simp only [allocInit, tblCapacity, List.length_replicate]
    decide
  · intro j hj; simp at hj
  · intro j _ hj2
    simp only [allocInit, List.length_replicate] at hj2
    simp only [allocInit]
    exact get?_replicate_of_lt _ _ _ hj2

/-- The keys of the live entries of a small table, in slot order: the small
form's iteration order. -/
def smallLiveKeys (s : SmallTbl) : List Nat :=
  rowKeys (s.dataTable.take (smallUsed s))

/-- C4: when the small Set add fails, the handler facade promotes: it
builds a fresh large table of the minimum promotion size, re-inserts every
live entry in source slot order — so the large table has
`number_of_elements = N` and iteration order identical to the small
table's — and then performs the pending add on the large table. -/
theorem claim_C4 (hash : Nat → Nat) (hashed : Nat → Bool) (s : SmallTbl) (k : Nat)
    (hfail : SmallOrderedHashSet_Add hash hashed s k = none)
    (hN : s.numElements = (smallLiveKeys s).length)
    (h254 : smallUsed s ≤ 254)
    (hnd : (smallLiveKeys s).Nodup) :
    ∃ L, OrderedHashSetHandler_AdjustRepresentation hash s = some (HashTbl.base L) ∧
      L.numElements = s.numElements ∧
      liveSeqD L = (smallLiveKeys s).map (fun k => [Obj.val k]) ∧
      OrderedHashSetHandler_Add hash hashed (Sum.inl s) k =
        (OrderedHashSet_Add hash (HashTbl.base L) k).map Sum.inr := by
  have hkeysle : (smallLiveKeys s).length ≤ 254 := by
    refine le_trans (rowKeys_length_le _) (le_trans ?_ h254)
    rw [List.length_take]
    omega
  obtain ⟨L, hfoldeq, hCL⟩ := adjustFold_spec hash
    (s.dataTable.take (smallUsed s)) [] (allocInit 1 OrderedHashTableMinSize)
    Canon_allocInit
    (by simpa [smallLiveKeys] using hnd)
    (by simpa [smallLiveKeys] using le_trans hkeysle (by omega))
  rw [List.nil_append] at hCL
  have hAdj : OrderedHashSetHandler_AdjustRepresentation hash s =
      some (HashTbl.base L) := by
    rw [OrderedHashSetHandler_AdjustRepresentation,
      allocate_eq 1 OrderedHashTableMinSize (by decide)]
    exact hfoldeq
  refine ⟨L, hAdj, ?_, ?_, ?_⟩
  · rw [hCL.1]
    rw [smallLiveKeys] at hN
    exact hN.symm
  · exact Canon_liveSeq hCL
  · simp only [OrderedHashSetHandler_Add, hfail, hAdj]

/-- A full capacity-130 small Set table with 64 tombstones and the 66 live
keys 64..129, used in the C4 witness; its grow fails because the doubled
capacity 260 exceeds the maximum. -/
def wC4small : SmallTbl :=
  { numBuckets := 65, buckets := List.replicate 65 none, numElements := 66,
    numDeleted := 64,
    dataTable := (List.range 130).map
      (fun i => if i < 64 then [Obj.hole] else [Obj.val i]),
    chains := List.replicate 130 none }

set_option maxRecDepth 100000 in
/-- Witness for C4: promoting the concrete full small table re-inserts its
66 live keys in order and hands the pending add of key 7 to the large
table. -/
theorem claim_C4_witness :
    ∃ L, OrderedHashSetHandler_AdjustRepresentation id wC4small =
        some (HashTbl.base L) ∧
      L.numElements = wC4small.numElements ∧
      liveSeqD L = (smallLiveKeys wC4small).map (fun k => [Obj.val k]) ∧
      OrderedHashSetHandler_Add id (fun _ => true) (Sum.inl wC4small) 7 =
        (OrderedHashSet_Add id (HashTbl.base L) 7).map Sum.inr :=
  claim_C4 id (fun _ => true) wC4small 7 (by decide) (by decide) (by decide)
    (by decide)

end OrderedHT
